import Mathlib

/-!
# Verification of the formula-tree mutation and serialization engine

Shallow embedding of the expression-tree engine consisting of
`AstManipulatorService` (identifier stamping, selection, deletion) and
`FormulaBuilderService` (rendering with precedence-driven parenthesization,
validation) over the node model of `ast-node.model`.

Modelling conventions:
* JS strings are modelled as `List Char` (`Str`).
* The optional `id` field of a node is `Option NodeId` (`none` = `undefined`);
  the optional `selected` field is a `Bool` (`undefined` behaves as `false`
  everywhere the source reads it).
* JS strict equality `a === b` between an optional id and a string, or between
  two nullable ids, is `false` whenever either side is `null`/`undefined`
  (`undefined === null` is `false` in JS), captured by `idEqStr` / `idEqOpt`.
* A JS number is `JsNum`: `NaN`, `Infinity`, `-Infinity`, or a finite value
  (every finite IEEE double is a rational).  The engine never does arithmetic
  on values; it only tests `Number.isInteger` / `isNaN` and formats them.
* `Math.random().toString(36).substr(2, 9)` suffixes are modelled by a supply
  `σ : Nat → Str` consumed in visit order; `Date.now()` timestamps by an
  explicit `now : Str` argument per `deleteNode` call.
* `parent.right === child` (reference equality inside `needsParentheses`) is
  modelled by a `Bool` computed at each visitor call site, which is what the
  reference comparison evaluates to on a strict (alias-free) tree.
-/

abbrev Str : Type := List Char

abbrev NodeId : Type := Str

/-- Binary operation tags: `'ADDITION' | 'SUBTRACTION' | 'MULTIPLICATION' | 'DIVISION' | 'POWER'`. -/
inductive BinType where
  | ADDITION | SUBTRACTION | MULTIPLICATION | DIVISION | POWER
  deriving DecidableEq

/-- Unary operation tags: `'NEGATION' | 'PAREN'` (the Paren-aware variant of the
node model, which §3/§4 of the spec treat as authoritative). -/
inductive UnType where
  | NEGATION | PAREN
  deriving DecidableEq

/-- Constant tags: `'PI' | 'E'`. -/
inductive ConstType where
  | PI | E
  deriving DecidableEq

/-- A JS number: `NaN`, `±Infinity`, or a finite value. -/
inductive JsNum where
  | nan
  | posInf
  | negInf
  | fin (q : ℚ)
  deriving DecidableEq

/-- The `AstNode` union type: binary / unary operations, function calls,
number and variable leaves, and symbolic constants.  Every node carries the
shared `BaseAstNode` fields `id?` and `selected?`. -/
inductive AstNode where
  | bin (btype : BinType) (left right : AstNode) (id : Option NodeId) (selected : Bool)
  | un (utype : UnType) (expression : AstNode) (id : Option NodeId) (selected : Bool)
  | func (name : Str) (args : List AstNode) (id : Option NodeId) (selected : Bool)
  | num (value : JsNum) (id : Option NodeId) (selected : Bool)
  | varRef (name : Str) (id : Option NodeId) (selected : Bool)
  | const (ctype : ConstType) (id : Option NodeId) (selected : Bool)

namespace AstNode

/-- The `id` field shared by all node variants. -/
def getId : AstNode → Option NodeId
  | .bin _ _ _ i _ => i
  | .un _ _ i _ => i
  | .func _ _ i _ => i
  | .num _ i _ => i
  | .varRef _ i _ => i
  | .const _ i _ => i

/-- The `selected` field shared by all node variants. -/
def getSelected : AstNode → Bool
  | .bin _ _ _ _ s => s
  | .un _ _ _ s => s
  | .func _ _ _ s => s
  | .num _ _ s => s
  | .varRef _ _ s => s
  | .const _ _ s => s

end AstNode

/-- Type guard `isBinaryOperation`. -/
def isBinaryOperation : AstNode → Bool
  | .bin _ _ _ _ _ => true
  | _ => false

/-- Type guard `isUnaryOperation` (`'NEGATION' || 'PAREN'`). -/
def isUnaryOperation : AstNode → Bool
  | .un _ _ _ _ => true
  | _ => false

/-- Type guard `isFunction`. -/
def isFunction : AstNode → Bool
  | .func _ _ _ _ => true
  | _ => false

/-- The `type` string tag of a `BinType`. -/
def binTypeStr : BinType → Str
  | .ADDITION => "ADDITION".data
  | .SUBTRACTION => "SUBTRACTION".data
  | .MULTIPLICATION => "MULTIPLICATION".data
  | .DIVISION => "DIVISION".data
  | .POWER => "POWER".data

/-- The `type` string tag of a `UnType`. -/
def unTypeStr : UnType → Str
  | .NEGATION => "NEGATION".data
  | .PAREN => "PAREN".data

/-- The `type` string tag of a `ConstType`. -/
def constTypeStr : ConstType → Str
  | .PI => "PI".data
  | .E => "E".data

/-- The `node.type` string of any node. -/
def typeStr : AstNode → Str
  | .bin k _ _ _ _ => binTypeStr k
  | .un k _ _ _ => unTypeStr k
  | .func _ _ _ _ => "FUNCTION".data
  | .num _ _ _ => "NUMBER".data
  | .varRef _ _ _ => "VARIABLE".data
  | .const k _ _ => constTypeStr k

/-- JS strict equality `node.id === targetId` where `targetId` is a string:
`undefined === string` is `false`. -/
def idEqStr (o : Option NodeId) (target : NodeId) : Bool :=
  match o with
  | some x => decide (x = target)
  | none => false

/-- JS strict equality `node.id === selectedId` where both sides are nullable:
`undefined === null` is `false` in JS, so any `none` makes this `false`. -/
def idEqOpt (o sel : Option NodeId) : Bool :=
  match o, sel with
  | some x, some y => decide (x = y)
  | _, _ => false

/-- Decimal digit characters, modelling JS number-to-string for a digit. -/
def digitChar (n : Nat) : Char :=
  if n = 0 then '0' else if n = 1 then '1' else if n = 2 then '2'
  else if n = 3 then '3' else if n = 4 then '4' else if n = 5 then '5'
  else if n = 6 then '6' else if n = 7 then '7' else if n = 8 then '8'
  else '9'

/-- Fuelled decimal rendering of a natural number (most significant digit
first); the fuel is always sufficient at `natDigits`'s call site. -/
def natDigitsGo : Nat → Nat → Str
  | 0, _ => []
  | fuel + 1, n =>
    if n < 10 then [digitChar n]
    else natDigitsGo fuel (n / 10) ++ [digitChar (n % 10)]

/-- Decimal rendering of a natural number, modelling JS `${n}` / `n.toString()`. -/
def natDigits (n : Nat) : Str :=
  natDigitsGo (n + 1) n

mutual

/-- `addNodeIds(node, path)`: stamp every node with
`id = path + node.type + '_' + rand()` and `selected = false`; children
descend with path markers `L_`, `R_`, `E_`, `A<index>_`.  The random suffixes
are drawn from the supply `σ` in visit order (counter threaded through). -/
def addNodeIds (σ : Nat → Str) : AstNode → Str → Nat → AstNode × Nat
  | .bin k l r _ _, path, c =>
    let i := path ++ binTypeStr k ++ '_' :: σ c
    let lr := addNodeIds σ l (path ++ "L_".data) (c + 1)
    let rr := addNodeIds σ r (path ++ "R_".data) lr.2
    (.bin k lr.1 rr.1 (some i) false, rr.2)
  | .un k e _ _, path, c =>
    let i := path ++ unTypeStr k ++ '_' :: σ c
    let er := addNodeIds σ e (path ++ "E_".data) (c + 1)
    (.un k er.1 (some i) false, er.2)
  | .func n args _ _, path, c =>
    let i := path ++ "FUNCTION".data ++ '_' :: σ c
    let ar := addNodeIdsArgs σ args path 0 (c + 1)
    (.func n ar.1 (some i) false, ar.2)
  | .num v _ _, path, c =>
    (.num v (some (path ++ "NUMBER".data ++ '_' :: σ c)) false, c + 1)
  | .varRef n _ _, path, c =>
    (.varRef n (some (path ++ "VARIABLE".data ++ '_' :: σ c)) false, c + 1)
  | .const k _ _, path, c =>
    (.const k (some (path ++ constTypeStr k ++ '_' :: σ c)) false, c + 1)

/-- `node.arguments.map((arg, index) => addNodeIds(arg, path + 'A' + index + '_'))`
with the index and random-supply counter made explicit. -/
def addNodeIdsArgs (σ : Nat → Str) : List AstNode → Str → Nat → Nat → List AstNode × Nat
  | [], _, _, c => ([], c)
  | a :: as, path, idx, c =>
    let ar := addNodeIds σ a (path ++ 'A' :: (natDigits idx ++ ['_'])) c
    let asr := addNodeIdsArgs σ as path (idx + 1) ar.2
    (ar.1 :: asr.1, asr.2)

end

mutual

/-- `updateNodeSelection(node, selectedId)`: rebuild the tree with
`selected = (node.id === selectedId)` at every node. -/
def updateNodeSelection : AstNode → Option NodeId → AstNode
  | .bin k l r i _, sel =>
    .bin k (updateNodeSelection l sel) (updateNodeSelection r sel) i (idEqOpt i sel)
  | .un k e i _, sel =>
    .un k (updateNodeSelection e sel) i (idEqOpt i sel)
  | .func n args i _, sel =>
    .func n (updateNodeSelectionArgs args sel) i (idEqOpt i sel)
  | .num v i _, sel => .num v i (idEqOpt i sel)
  | .varRef n i _, sel => .varRef n i (idEqOpt i sel)
  | .const k i _, sel => .const k i (idEqOpt i sel)

/-- `node.arguments.map(arg => updateNodeSelection(arg, selectedId))`. -/
def updateNodeSelectionArgs : List AstNode → Option NodeId → List AstNode
  | [], _ => []
  | a :: as, sel => updateNodeSelection a sel :: updateNodeSelectionArgs as sel

end

/-- The placeholder `{ type: 'NUMBER', value: 0, id: `placeholder_${Date.now()}` }`
inserted by deletion; the timestamp is the explicit argument `now`. -/
def placeholderNode (now : Str) : AstNode :=
  .num (.fin 0) (some ("placeholder_".data ++ now)) false

mutual

/-- `removeNodeRecursive(node, targetId)`.  For a binary node a matching direct
child is replaced by the other child; a matching unary child replaces the unary
node by a `Number(0)` placeholder; a function filters out matching arguments,
re-inserting one placeholder if a previously non-empty argument list became
empty; recursion continues into non-matching children.  The source's
`AstNode | null` return type never actually returns `null`, so the
`x || fallback` guards on recursive results are dead and the model is total. -/
def removeNodeRecursive (now targetId : Str) : AstNode → AstNode
  | .bin k l r i s =>
    if idEqStr l.getId targetId then r
    else if idEqStr r.getId targetId then l
    else .bin k (removeNodeRecursive now targetId l) (removeNodeRecursive now targetId r) i s
  | .un k e i s =>
    if idEqStr e.getId targetId then placeholderNode now
    else .un k (removeNodeRecursive now targetId e) i s
  | .func n args i s =>
    if (args.filter fun a => !idEqStr a.getId targetId).isEmpty && !args.isEmpty then
      -- all arguments removed: the source pushes one placeholder and then maps
      -- `removeNodeRecursive` over the singleton; on a `Number` node that map
      -- is the identity (`removeNodeRecursive_num` below), so the result is
      -- the bare placeholder list.
      .func n [placeholderNode now] i s
    else
      .func n (removeNodeKeepArgs now targetId args) i s
  | .num v i s => .num v i s
  | .varRef n i s => .varRef n i s
  | .const k i s => .const k i s

/-- `arguments.filter(arg => arg.id !== targetId).map(arg => removeNodeRecursive(arg, targetId))`,
with the filter and the map fused into one structural pass (the filter
predicate is evaluated on the original argument, exactly as in the source). -/
def removeNodeKeepArgs (now targetId : Str) : List AstNode → List AstNode
  | [] => []
  | a :: as =>
    if idEqStr a.getId targetId then removeNodeKeepArgs now targetId as
    else removeNodeRecursive now targetId a :: removeNodeKeepArgs now targetId as

end

/-- `removeNodeRecursive` is the identity on a `Number` leaf (used to justify
the placeholder short-cut in the function case). -/
theorem removeNodeRecursive_num (now targetId : Str) (v : JsNum) (i : Option NodeId) (s : Bool) :
    removeNodeRecursive now targetId (.num v i s) = .num v i s := rfl

/-- The fused pass equals the source's `filter` followed by `map`. -/
theorem removeNodeKeepArgs_eq_filter_map (now targetId : Str) (args : List AstNode) :
    removeNodeKeepArgs now targetId args =
      (args.filter fun a => !idEqStr a.getId targetId).map (removeNodeRecursive now targetId) := by
  induction args with
  | nil => rfl
  | cons a as ih =>
    by_cases h : idEqStr a.getId targetId <;>
      simp [removeNodeKeepArgs, List.filter_cons, h, ih]

/-- The service's reactive state: the current tree signal `_ast` and the
current selection signal `_selectedNodeId`. -/
structure EngineState where
  ast : Option AstNode
  selectedNodeId : Option NodeId

/-- `setAst(ast)`: stamp ids onto the incoming tree and clear the selection. -/
def setAst (σ : Nat → Str) (_s : EngineState) (ast : AstNode) : EngineState :=
  ⟨some (addNodeIds σ ast [] 0).1, none⟩

/-- `selectNode(nodeId)`: store the selection id and rebuild the tree's
`selected` flags. -/
def selectNode (s : EngineState) (nodeId : Option NodeId) : EngineState :=
  ⟨s.ast.map (fun t => updateNodeSelection t nodeId), nodeId⟩

/-- `deleteNode(nodeId)`: no-op when there is no tree or the root's id matches;
otherwise replace the tree by `removeNodeRecursive` and null the selection id. -/
def deleteNode (now : Str) (s : EngineState) (nodeId : Str) : EngineState :=
  match s.ast with
  | none => s
  | some t =>
    if idEqStr t.getId nodeId then s
    else ⟨some (removeNodeRecursive now nodeId t), none⟩

/-- `clearAst()`. -/
def clearAst (_s : EngineState) : EngineState := ⟨none, none⟩

/-- The `precedence` table: `ADDITION/SUBTRACTION = 1`, `MULTIPLICATION/DIVISION = 2`,
`POWER = 3`, `NEGATION = 4`; every other `type` key is absent (`undefined`). -/
def precedenceOf : AstNode → Option Nat
  | .bin .ADDITION _ _ _ _ => some 1
  | .bin .SUBTRACTION _ _ _ _ => some 1
  | .bin .MULTIPLICATION _ _ _ _ => some 2
  | .bin .DIVISION _ _ _ _ => some 2
  | .bin .POWER _ _ _ _ => some 3
  | .un .NEGATION _ _ _ => some 4
  | _ => none

/-- The `operators` symbol table. -/
def opStr : BinType → Str
  | .ADDITION => "+".data
  | .SUBTRACTION => "-".data
  | .MULTIPLICATION => "*".data
  | .DIVISION => "/".data
  | .POWER => "^".data

/-- `needsParentheses(parent, child)`.  `childIsRightRef` models the reference
comparison `parent.right === child`, which on a strict (alias-free) tree is
`true` exactly when the child being visited was passed as the parent's right
operand. -/
def needsParentheses (parent child : AstNode) (childIsRightRef : Bool) : Bool :=
  match precedenceOf parent, precedenceOf child with
  | some parentPrecedence, some childPrecedence =>
    if childPrecedence < parentPrecedence then true
    else if childPrecedence = parentPrecedence then
      (match parent with
       | .bin .SUBTRACTION _ _ _ _ => true
       | .bin .DIVISION _ _ _ _ => true
       | _ => false) && childIsRightRef
    else false
  | _, _ => false

/-- `Number.isInteger(value)`. -/
def jsNumIsInteger : JsNum → Bool
  | .fin q => decide (q.den = 1)
  | _ => false

/-- `isNaN(value)` for an actual number. -/
def jsIsNaN : JsNum → Bool
  | .nan => true
  | _ => false

/-- JS integer-valued `value.toString()`. -/
def intToStr (n : Int) : Str :=
  if n < 0 then '-' :: natDigits n.natAbs else natDigits n.toNat

/-- Two-digit zero-padded rendering of `k < 100`. -/
def pad2 (k : Nat) : Str :=
  if k < 10 then '0' :: natDigits k else natDigits k

/-- `m / 100` rendered with exactly two decimal digits. -/
def fixedAbs (m : Nat) : Str :=
  natDigits (m / 100) ++ '.' :: pad2 (m % 100)

/-- `value.toFixed(2)` on a finite value: scale by 100 and round to the nearest
integer, ties towards the larger candidate, then print with two decimals. -/
def toFixed2 (q : ℚ) : Str :=
  let scaled : ℚ := q * 100 + 1 / 2
  let n : Int := scaled.num.fdiv scaled.den
  if n < 0 then '-' :: fixedAbs n.natAbs else fixedAbs n.toNat

/-- `visitNumber`: integral values render via `toString`, others via
`toFixed(2)` (`Number.isInteger` is `false` on `NaN`/`±Infinity`, whose
`toFixed` yields their standard string forms). -/
def numToString : JsNum → Str
  | .nan => "NaN".data
  | .posInf => "Infinity".data
  | .negInf => "-Infinity".data
  | .fin q => if q.den = 1 then intToStr q.num else toFixed2 q

mutual

/-- The visitor `visit(node, parent?)`.  The parent context also records, as a
`Bool`, the value of the reference comparison `parent.right === node` made by
`needsParentheses`. -/
def visit : AstNode → Option (AstNode × Bool) → Str
  | .bin k l r i s, parentCtx =>
    -- visitBinaryOperation
    let node := AstNode.bin k l r i s
    let leftExpr := visit l (some (node, false))
    let rightExpr := visit r (some (node, true))
    let expression := leftExpr ++ ' ' :: (opStr k ++ ' ' :: rightExpr)
    match parentCtx with
    | some (p, isRight) =>
      if needsParentheses p node isRight then '(' :: (expression ++ [')']) else expression
    | none => expression
  | .un k e i s, _ =>
    -- visitUnaryOperation
    let node := AstNode.un k e i s
    let expr := visit e (some (node, false))
    match k with
    | .PAREN => '(' :: (expr ++ [')'])
    | .NEGATION => if isBinaryOperation e then '-' :: '(' :: (expr ++ [')']) else '-' :: expr
  | .func n args _ _, _ =>
    -- visitFunction: arguments are visited with no parent and joined by ", "
    n ++ '(' :: (visitArgsJoin args ++ [')'])
  | .num v _ _, _ => numToString v
  | .varRef n _ _, _ =>
    -- visitVariable: prepend '$' unless already present
    match n with
    | '$' :: _ => n
    | _ => '$' :: n
  | .const k _ _, _ => constTypeStr k

/-- `node.arguments.map(arg => this.visit(arg)).join(', ')`. -/
def visitArgsJoin : List AstNode → Str
  | [] => []
  | [a] => visit a none
  | a :: b :: as => visit a none ++ ',' :: ' ' :: visitArgsJoin (b :: as)

end

/-- `buildFormula(ast)`: empty string for an absent tree. -/
def buildFormula : Option AstNode → Str
  | none => []
  | some t => visit t none

mutual

/-- `validateNode(node, errors)`, modelled as the list of diagnostics the call
appends, in push order.  The `!node.left || !node.right` and
`!node.expression` guards cannot fire in the model because child nodes are
always present, and `typeof value !== 'number'` cannot fire because a
`JsNum` is always a number. -/
def validateNode : AstNode → List Str
  | .bin _ l r _ _ => validateNode l ++ validateNode r
  | .un _ e _ _ => validateNode e
  | .func n args _ _ =>
    (if n.isEmpty then ["Function missing name".data] else []) ++
      ((if args.isEmpty then ["Function ".data ++ n ++ " has no arguments".data] else []) ++
        validateArgs args)
  | .num v _ _ => if jsIsNaN v then ["Invalid number value".data] else []
  | .varRef n _ _ => if n.isEmpty then ["Variable missing name".data] else []
  | .const _ _ _ => []

/-- `node.arguments.forEach(arg => this.validateNode(arg, errors))`. -/
def validateArgs : List AstNode → List Str
  | [] => []
  | a :: as => validateNode a ++ validateArgs as

end

/-- `validateFormula(ast)`. -/
def validateFormula (ast : AstNode) : List Str := validateNode ast

mutual

/-- All subtrees of a tree, in pre-order (the node itself first). -/
def subtreesL : AstNode → List AstNode
  | .bin k l r i s => .bin k l r i s :: (subtreesL l ++ subtreesL r)
  | .un k e i s => .un k e i s :: subtreesL e
  | .func n args i s => .func n args i s :: subtreesArgsL args
  | .num v i s => [.num v i s]
  | .varRef n i s => [.varRef n i s]
  | .const k i s => [.const k i s]

/-- All subtrees of a list of argument trees. -/
def subtreesArgsL : List AstNode → List AstNode
  | [] => []
  | a :: as => subtreesL a ++ subtreesArgsL as

end

/-- The `id` fields of all nodes of a tree, in pre-order. -/
def idsL (t : AstNode) : List (Option NodeId) := (subtreesL t).map AstNode.getId

/-- The `id` fields of all nodes of an argument list. -/
def idsArgsL (as : List AstNode) : List (Option NodeId) := (subtreesArgsL as).map AstNode.getId

/-- How many nodes of the tree have `selected = true`. -/
def selCount (t : AstNode) : Nat := (subtreesL t).countP (fun n => n.getSelected)

/-- Whether a node is a `Number` leaf holding `NaN`. -/
def isNanNumNode : AstNode → Bool
  | .num v _ _ => jsIsNaN v
  | _ => false

/-- How many `Number` leaves hold `NaN`. -/
def nanLeafCount (t : AstNode) : Nat := (subtreesL t).countP isNanNumNode

mutual

/-- Replace the (unique, under distinct ids) node whose `id` field equals
`tid` by `repl`, leaving everything else in place. -/
def replaceNode (tid : Option NodeId) (repl : AstNode) : AstNode → AstNode
  | .bin k l r i s =>
    if i = tid then repl
    else .bin k (replaceNode tid repl l) (replaceNode tid repl r) i s
  | .un k e i s =>
    if i = tid then repl else .un k (replaceNode tid repl e) i s
  | .func n args i s =>
    if i = tid then repl else .func n (replaceArgs tid repl args) i s
  | .num v i s => if i = tid then repl else .num v i s
  | .varRef n i s => if i = tid then repl else .varRef n i s
  | .const k i s => if i = tid then repl else .const k i s

/-- `replaceNode` mapped over an argument list. -/
def replaceArgs (tid : Option NodeId) (repl : AstNode) : List AstNode → List AstNode
  | [] => []
  | a :: as => replaceNode tid repl a :: replaceArgs tid repl as

end

/-- The number of selected nodes of the state's current tree (0 without a tree). -/
def stateSelCount (s : EngineState) : Nat :=
  match s.ast with
  | some t => selCount t
  | none => 0

/-- The `id` of the root of the state's current tree. -/
def stateRootId (s : EngineState) : Option NodeId :=
  match s.ast with
  | some t => t.getId
  | none => none

theorem AstNode.inductionOn {motive : AstNode → Prop}
    (hbin : ∀ k l r i s, motive l → motive r → motive (.bin k l r i s))
    (hun : ∀ k e i s, motive e → motive (.un k e i s))
    (hfunc : ∀ n args i s, (∀ a ∈ args, motive a) → motive (.func n args i s))
    (hnum : ∀ v i s, motive (.num v i s))
    (hvar : ∀ n i s, motive (.varRef n i s))
    (hconst : ∀ k i s, motive (.const k i s)) :
    ∀ t, motive t
  | .bin k l r i s =>
    hbin k l r i s (AstNode.inductionOn hbin hun hfunc hnum hvar hconst l)
      (AstNode.inductionOn hbin hun hfunc hnum hvar hconst r)
  | .un k e i s => hun k e i s (AstNode.inductionOn hbin hun hfunc hnum hvar hconst e)
  | .func n args i s =>
    hfunc n args i s (fun a _ => AstNode.inductionOn hbin hun hfunc hnum hvar hconst a)
  | .num v i s => hnum v i s
  | .varRef n i s => hvar n i s
  | .const k i s => hconst k i s
termination_by t => sizeOf t
decreasing_by
  all_goals simp_wf
  · omega
  · omega
  · omega
  · have := List.sizeOf_lt_of_mem (by assumption : a ∈ args); omega

/-- The `id` fields of all strict descendants of a node (the tail of `idsL`). -/
def childIds : AstNode → List (Option NodeId)
  | .bin _ l r _ _ => idsL l ++ idsL r
  | .un _ e _ _ => idsL e
  | .func _ args _ _ => idsArgsL args
  | .num _ _ _ => []
  | .varRef _ _ _ => []
  | .const _ _ _ => []

/-- `c` is a direct child of `B` (left/right operand, unary expression, or an
element of the argument list). -/
def IsChild (c B : AstNode) : Prop :=
  match B with
  | .bin _ l r _ _ => c = l ∨ c = r
  | .un _ e _ _ => c = e
  | .func _ args _ _ => c ∈ args
  | _ => False

theorem idsL_bin (k l r i s) : idsL (.bin k l r i s) = i :: (idsL l ++ idsL r) := by
  simp [idsL, subtreesL, AstNode.getId]

theorem idsL_un (k e i s) : idsL (.un k e i s) = i :: idsL e := by
  simp [idsL, subtreesL, AstNode.getId]

theorem idsL_func (n args i s) : idsL (.func n args i s) = i :: idsArgsL args := by
  simp [idsL, idsArgsL, subtreesL, AstNode.getId]

theorem idsL_num (v i s) : idsL (.num v i s) = [i] := by
  simp [idsL, subtreesL, AstNode.getId]

theorem idsL_varRef (n i s) : idsL (.varRef n i s) = [i] := by
  simp [idsL, subtreesL, AstNode.getId]

theorem idsL_const (k i s) : idsL (.const k i s) = [i] := by
  simp [idsL, subtreesL, AstNode.getId]

theorem idsArgsL_nil : idsArgsL [] = [] := rfl

theorem idsArgsL_cons (a : AstNode) (as : List AstNode) :
    idsArgsL (a :: as) = idsL a ++ idsArgsL as := by
  simp [idsArgsL, subtreesArgsL, idsL]

theorem idsL_eq_cons (t : AstNode) : idsL t = t.getId :: childIds t := by
  cases t <;> simp [idsL_bin, idsL_un, idsL_func, idsL_num, idsL_varRef, idsL_const,
    childIds, AstNode.getId]

theorem self_mem_subtreesL (t : AstNode) : t ∈ subtreesL t := by
  cases t <;> simp [subtreesL]

theorem mem_subtreesArgsL {B : AstNode} {as : List AstNode} :
    B ∈ subtreesArgsL as ↔ ∃ a ∈ as, B ∈ subtreesL a := by
  induction as with
  | nil => simp [subtreesArgsL]
  | cons a as ih => simp [subtreesArgsL, ih]

theorem mem_idsArgsL {x : Option NodeId} {as : List AstNode} :
    x ∈ idsArgsL as ↔ ∃ a ∈ as, x ∈ idsL a := by
  induction as with
  | nil => simp [idsArgsL_nil]
  | cons a as ih => simp [idsArgsL_cons, ih]

theorem getId_mem_idsL {B t : AstNode} (h : B ∈ subtreesL t) : B.getId ∈ idsL t :=
  List.mem_map_of_mem _ h

theorem idEqStr_eq_true_iff {o : Option NodeId} {t : NodeId} :
    idEqStr o t = true ↔ o = some t := by
  cases o <;> simp [idEqStr]

theorem idEqStr_eq_false_iff {o : Option NodeId} {t : NodeId} :
    idEqStr o t = false ↔ o ≠ some t := by
  rw [← Bool.not_eq_true, idEqStr_eq_true_iff]

/-- A target id that occurs nowhere in the tree leaves `removeNodeRecursive`
with nothing to do: the rebuilt tree is (structurally) the input. -/
theorem remove_not_found (now target : Str) :
    ∀ t : AstNode, some target ∉ idsL t → removeNodeRecursive now target t = t := by
  intro t
  induction t using AstNode.inductionOn with
  | hbin k l r i s ihl ihr =>
    intro h
    rw [idsL_bin] at h
    simp only [List.mem_cons, List.mem_append] at h
    push_neg at h
    have hl : idEqStr l.getId target = false :=
      idEqStr_eq_false_iff.mpr fun hc => h.2.1 (hc ▸ getId_mem_idsL (self_mem_subtreesL l))
    have hr : idEqStr r.getId target = false :=
      idEqStr_eq_false_iff.mpr fun hc => h.2.2 (hc ▸ getId_mem_idsL (self_mem_subtreesL r))
    simp [removeNodeRecursive, hl, hr, ihl h.2.1, ihr h.2.2]
  | hun k e i s ihe =>
    intro h
    rw [idsL_un] at h
    simp only [List.mem_cons] at h
    push_neg at h
    have he : idEqStr e.getId target = false :=
      idEqStr_eq_false_iff.mpr fun hc => h.2 (hc ▸ getId_mem_idsL (self_mem_subtreesL e))
    simp [removeNodeRecursive, he, ihe h.2]
  | hfunc n args i s ih =>
    intro h
    rw [idsL_func] at h
    simp only [List.mem_cons] at h
    push_neg at h
    have hargs : ∀ a ∈ args, some target ∉ idsL a := by
      intro a ha hc
      exact h.2 (mem_idsArgsL.mpr ⟨a, ha, hc⟩)
    have hfilter : (args.filter fun a => !idEqStr a.getId target) = args :=
      List.filter_eq_self.mpr fun a ha => by
        simp [idEqStr_eq_false_iff.mpr
          fun hc => hargs a ha (hc ▸ getId_mem_idsL (self_mem_subtreesL a))]
    have hkeep : removeNodeKeepArgs now target args = args := by
      rw [removeNodeKeepArgs_eq_filter_map, hfilter]
      exact List.map_congr_left (fun a ha => ih a ha (hargs a ha)) |>.trans (List.map_id _)
    cases args with
    | nil => simp [removeNodeRecursive, removeNodeKeepArgs]
    | cons a as =>
      rw [removeNodeRecursive]
      rw [hfilter]
      simp [hkeep]
  | hnum v i s => intro _; rfl
  | hvar n i s => intro _; rfl
  | hconst k i s => intro _; rfl

/-- `replaceArgs` is the identity when `replaceNode` fixes every element. -/
theorem replaceArgs_congr_id (tid : Option NodeId) (repl : AstNode) :
    ∀ as : List AstNode, (∀ a ∈ as, replaceNode tid repl a = a) → replaceArgs tid repl as = as := by
  intro as h
  induction as with
  | nil => rfl
  | cons a as iha =>
    rw [replaceArgs, h a (by simp), iha (fun b hb => h b (by simp [hb]))]

/-- A replacement id that occurs nowhere in the tree leaves `replaceNode`
unchanged. -/
theorem replace_not_found (tid : Option NodeId) (repl : AstNode) :
    ∀ t : AstNode, tid ∉ idsL t → replaceNode tid repl t = t := by
  intro t
  induction t using AstNode.inductionOn with
  | hbin k l r i s ihl ihr =>
    intro h
    rw [idsL_bin] at h
    simp only [List.mem_cons, List.mem_append] at h
    push_neg at h
    have hi : ¬ (i = tid) := fun hc => h.1 hc.symm
    simp [replaceNode, hi, ihl h.2.1, ihr h.2.2]
  | hun k e i s ihe =>
    intro h
    rw [idsL_un] at h
    simp only [List.mem_cons] at h
    push_neg at h
    have hi : ¬ (i = tid) := fun hc => h.1 hc.symm
    simp [replaceNode, hi, ihe h.2]
  | hfunc n args i s ih =>
    intro h
    rw [idsL_func] at h
    simp only [List.mem_cons] at h
    push_neg at h
    have hi : ¬ (i = tid) := fun hc => h.1 hc.symm
    have hnotin : ∀ a ∈ args, tid ∉ idsL a := fun a ha hc =>
      h.2 (mem_idsArgsL.mpr ⟨a, ha, hc⟩)
    have hargs : replaceArgs tid repl args = args :=
      replaceArgs_congr_id _ _ _ (fun a ha => ih a ha (hnotin a ha))
    simp [replaceNode, hi, hargs]
  | hnum v i s =>
    intro h
    rw [idsL_num] at h
    simp only [List.mem_singleton] at h
    have hi : ¬ (i = tid) := fun hc => h hc.symm
    simp [replaceNode, hi]
  | hvar n i s =>
    intro h
    rw [idsL_varRef] at h
    simp only [List.mem_singleton] at h
    have hi : ¬ (i = tid) := fun hc => h hc.symm
    simp [replaceNode, hi]
  | hconst k i s =>
    intro h
    rw [idsL_const] at h
    simp only [List.mem_singleton] at h
    have hi : ¬ (i = tid) := fun hc => h hc.symm
    simp [replaceNode, hi]

theorem childIds_subset_idsL (t : AstNode) : ∀ x ∈ childIds t, x ∈ idsL t := by
  rw [idsL_eq_cons]
  exact fun x hx => List.mem_cons_of_mem _ hx

theorem nodup_head_notin_childIds {t : AstNode} (h : (idsL t).Nodup) :
    t.getId ∉ childIds t := by
  rw [idsL_eq_cons] at h
  exact (List.nodup_cons.mp h).1

/-- The id of a direct child of any node occurring in `t` is a strict-descendant
id of `t`. -/
theorem child_id_mem_childIds :
    ∀ t : AstNode, ∀ B ∈ subtreesL t, ∀ c : AstNode, IsChild c B → c.getId ∈ childIds t := by
  intro t
  induction t using AstNode.inductionOn with
  | hbin k l r i s ihl ihr =>
    intro B hB c hc
    simp only [subtreesL, List.mem_cons, List.mem_append] at hB
    rcases hB with hBt | hBl | hBr
    · subst hBt
      simp only [IsChild] at hc
      rcases hc with hcl | hcr
      · exact hcl ▸ List.mem_append_left _ (getId_mem_idsL (self_mem_subtreesL c))
      · exact hcr ▸ List.mem_append_right _ (getId_mem_idsL (self_mem_subtreesL c))
    · exact List.mem_append_left _ (childIds_subset_idsL l _ (ihl B hBl c hc))
    · exact List.mem_append_right _ (childIds_subset_idsL r _ (ihr B hBr c hc))
  | hun k e i s ihe =>
    intro B hB c hc
    simp only [subtreesL, List.mem_cons] at hB
    rcases hB with hBt | hBe
    · subst hBt
      simp only [IsChild] at hc
      exact hc ▸ getId_mem_idsL (self_mem_subtreesL c)
    · exact childIds_subset_idsL e _ (ihe B hBe c hc)
  | hfunc n args i s ih =>
    intro B hB c hc
    simp only [subtreesL, List.mem_cons] at hB
    rcases hB with hBt | hBargs
    · subst hBt
      simp only [IsChild] at hc
      exact mem_idsArgsL.mpr ⟨c, hc, getId_mem_idsL (self_mem_subtreesL c)⟩
    · rcases mem_subtreesArgsL.mp hBargs with ⟨a, ha, hBa⟩
      exact mem_idsArgsL.mpr ⟨a, ha, childIds_subset_idsL a _ (ih a ha B hBa c hc)⟩
  | hnum v i s =>
    intro B hB c hc
    simp only [subtreesL, List.mem_singleton] at hB
    subst hB
    simp [IsChild] at hc
  | hvar n i s =>
    intro B hB c hc
    simp only [subtreesL, List.mem_singleton] at hB
    subst hB
    simp [IsChild] at hc
  | hconst k i s =>
    intro B hB c hc
    simp only [subtreesL, List.mem_singleton] at hB
    subst hB
    simp [IsChild] at hc

/-- Ids of distinct members of an argument list with globally distinct ids are
disjoint. -/
theorem idsArgs_nodup_disjoint :
    ∀ as : List AstNode, (idsArgsL as).Nodup →
      ∀ a ∈ as, ∀ b ∈ as, a ≠ b → ∀ x, x ∈ idsL a → x ∈ idsL b → False := by
  intro as
  induction as with
  | nil => intro _ a ha; simp at ha
  | cons hd tl ih =>
    intro hnd a ha b hb hab x hxa hxb
    rw [idsArgsL_cons, List.nodup_append] at hnd
    obtain ⟨hnd1, hnd2, hdisj⟩ := hnd
    simp only [List.mem_cons] at ha hb
    rcases ha with rfl | ha <;> rcases hb with rfl | hb
    · exact hab rfl
    · exact hdisj hxa (mem_idsArgsL.mpr ⟨b, hb, hxb⟩)
    · exact hdisj hxb (mem_idsArgsL.mpr ⟨a, ha, hxa⟩)
    · exact ih hnd2 a ha b hb hab x hxa hxb

/-- `replaceArgs` as a `map`. -/
theorem replaceArgs_eq_map (tid : Option NodeId) (repl : AstNode) (as : List AstNode) :
    replaceArgs tid repl as = as.map (replaceNode tid repl) := by
  induction as with
  | nil => rfl
  | cons a as ih => rw [replaceArgs, ih, List.map_cons]

/-- The local effect of a deletion whose target is a direct child of `B`:
a binary node collapses to its other child, a unary node becomes a `Number(0)`
placeholder, a function filters the argument out (re-inserting a placeholder
if a previously non-empty argument list became empty). -/
def deletionStep (now target : Str) : AstNode → AstNode
  | .bin _ l r _ _ => if idEqStr l.getId target then r else l
  | .un _ _ _ _ => placeholderNode now
  | .func n args i s =>
    .func n
      (if (args.filter fun a => !idEqStr a.getId target).isEmpty && !args.isEmpty
       then [placeholderNode now]
       else args.filter fun a => !idEqStr a.getId target) i s
  | other => other

theorem getId_bin (k l r i s) : (AstNode.bin k l r i s).getId = i := rfl
theorem getId_un (k e i s) : (AstNode.un k e i s).getId = i := rfl
theorem getId_func (n args i s) : (AstNode.func n args i s).getId = i := rfl
theorem getId_num (v i s) : (AstNode.num v i s).getId = i := rfl
theorem getId_varRef (n i s) : (AstNode.varRef n i s).getId = i := rfl
theorem getId_const (k i s) : (AstNode.const k i s).getId = i := rfl

theorem idsL_sublist_idsArgsL {a : AstNode} :
    ∀ as : List AstNode, a ∈ as → List.Sublist (idsL a) (idsArgsL as) := by
  intro as
  induction as with
  | nil => intro h; simp at h
  | cons hd tl ih =>
    intro h
    rw [idsArgsL_cons]
    rcases List.mem_cons.mp h with rfl | h
    · exact List.sublist_append_left _ _
    · exact (ih h).trans (List.sublist_append_right _ _)

/-- Deleting the id of a direct child of a node `B` occurring in a tree with
pairwise-distinct node ids substitutes `deletionStep` for `B` and leaves the
rest of the tree unchanged. -/
theorem remove_localizes (now target : Str) :
    ∀ t : AstNode, (idsL t).Nodup →
      ∀ B ∈ subtreesL t, ∀ c : AstNode, IsChild c B → c.getId = some target →
        removeNodeRecursive now target t = replaceNode B.getId (deletionStep now target B) t := by
  intro t
  induction t using AstNode.inductionOn with
  | hbin k l r i s ihl ihr =>
    intro hnd B hB c hc hcid
    rw [idsL_bin, List.nodup_cons, List.nodup_append] at hnd
    obtain ⟨hhead, hndl, hndr, hdisj⟩ := hnd
    simp only [subtreesL, List.mem_cons, List.mem_append] at hB
    rcases hB with hBt | hBl | hBr
    · subst hBt
      simp only [IsChild] at hc
      rcases hc with rfl | rfl
      · have hl : idEqStr c.getId target = true := idEqStr_eq_true_iff.mpr hcid
        simp [removeNodeRecursive, replaceNode, deletionStep, getId_bin, hl]
      · have hlne : l.getId ≠ some target := by
          intro hl
          exact hdisj (hl ▸ getId_mem_idsL (self_mem_subtreesL l))
            (hcid ▸ getId_mem_idsL (self_mem_subtreesL c))
        have hl : idEqStr l.getId target = false := idEqStr_eq_false_iff.mpr hlne
        have hr : idEqStr c.getId target = true := idEqStr_eq_true_iff.mpr hcid
        simp [removeNodeRecursive, replaceNode, deletionStep, getId_bin, hl, hr]
    · have htcl : some target ∈ childIds l := hcid ▸ child_id_mem_childIds l B hBl c hc
      have htl : some target ∈ idsL l := childIds_subset_idsL l _ htcl
      have hlne : idEqStr l.getId target = false := by
        rw [idEqStr_eq_false_iff]
        intro hle
        exact nodup_head_notin_childIds hndl (hle ▸ htcl)
      have hrne : idEqStr r.getId target = false := by
        rw [idEqStr_eq_false_iff]
        intro hre
        exact hdisj htl (hre ▸ getId_mem_idsL (self_mem_subtreesL r))
      have hnotr : some target ∉ idsL r := fun hcr => hdisj htl hcr
      have hBidl : B.getId ∈ idsL l := getId_mem_idsL hBl
      have hBnotr : B.getId ∉ idsL r := fun hcr => hdisj hBidl hcr
      have hine : ¬ (i = B.getId) := by
        intro hie
        exact hhead (by rw [hie]; exact List.mem_append_left _ hBidl)
      have hrem : removeNodeRecursive now target (.bin k l r i s)
          = .bin k (removeNodeRecursive now target l) (removeNodeRecursive now target r) i s := by
        simp [removeNodeRecursive, hlne, hrne]
      rw [hrem, ihl hndl B hBl c hc hcid, remove_not_found now target r hnotr]
      have hrep : replaceNode B.getId (deletionStep now target B) (.bin k l r i s)
          = .bin k (replaceNode B.getId (deletionStep now target B) l)
              (replaceNode B.getId (deletionStep now target B) r) i s := by
        simp [replaceNode, hine]
      rw [hrep, replace_not_found _ _ r hBnotr]
    · have htcr : some target ∈ childIds r := hcid ▸ child_id_mem_childIds r B hBr c hc
      have htr : some target ∈ idsL r := childIds_subset_idsL r _ htcr
      have hrne : idEqStr r.getId target = false := by
        rw [idEqStr_eq_false_iff]
        intro hre
        exact nodup_head_notin_childIds hndr (hre ▸ htcr)
      have hlne : idEqStr l.getId target = false := by
        rw [idEqStr_eq_false_iff]
        intro hle
        exact hdisj (hle ▸ getId_mem_idsL (self_mem_subtreesL l)) htr
      have hnotl : some target ∉ idsL l := fun hcl => hdisj hcl htr
      have hBidr : B.getId ∈ idsL r := getId_mem_idsL hBr
      have hBnotl : B.getId ∉ idsL l := fun hcl => hdisj hcl hBidr
      have hine : ¬ (i = B.getId) := by
        intro hie
        exact hhead (by rw [hie]; exact List.mem_append_right _ hBidr)
      have hrem : removeNodeRecursive now target (.bin k l r i s)
          = .bin k (removeNodeRecursive now target l) (removeNodeRecursive now target r) i s := by
        simp [removeNodeRecursive, hlne, hrne]
      rw [hrem, ihr hndr B hBr c hc hcid, remove_not_found now target l hnotl]
      have hrep : replaceNode B.getId (deletionStep now target B) (.bin k l r i s)
          = .bin k (replaceNode B.getId (deletionStep now target B) l)
              (replaceNode B.getId (deletionStep now target B) r) i s := by
        simp [replaceNode, hine]
      rw [hrep, replace_not_found _ _ l hBnotl]
  | hun k e i s ihe =>
    intro hnd B hB c hc hcid
    rw [idsL_un, List.nodup_cons] at hnd
    obtain ⟨hhead, hnde⟩ := hnd
    simp only [subtreesL, List.mem_cons] at hB
    rcases hB with hBt | hBe
    · subst hBt
      simp only [IsChild] at hc
      subst hc
      have he : idEqStr c.getId target = true := idEqStr_eq_true_iff.mpr hcid
      simp [removeNodeRecursive, replaceNode, deletionStep, getId_un, he]
    · have htce : some target ∈ childIds e := hcid ▸ child_id_mem_childIds e B hBe c hc
      have hene : idEqStr e.getId target = false := by
        rw [idEqStr_eq_false_iff]
        intro hee
        exact nodup_head_notin_childIds hnde (hee ▸ htce)
      have hBide : B.getId ∈ idsL e := getId_mem_idsL hBe
      have hine : ¬ (i = B.getId) := by
        intro hie
        exact hhead (by rw [hie]; exact hBide)
      have hrem : removeNodeRecursive now target (.un k e i s)
          = .un k (removeNodeRecursive now target e) i s := by
        simp [removeNodeRecursive, hene]
      rw [hrem, ihe hnde B hBe c hc hcid]
      simp [replaceNode, hine]
  | hfunc n args i s ih =>
    intro hnd B hB c hc hcid
    rw [idsL_func, List.nodup_cons] at hnd
    obtain ⟨hhead, hnda⟩ := hnd
    simp only [subtreesL, List.mem_cons] at hB
    rcases hB with hBt | hBargs
    · subst hBt
      simp only [IsChild] at hc
      have hkeep : removeNodeKeepArgs now target args
          = args.filter fun a => !idEqStr a.getId target := by
        rw [removeNodeKeepArgs_eq_filter_map]
        refine (List.map_congr_left fun a ha => ?_).trans (List.map_id _)
        obtain ⟨haargs, hap⟩ := List.mem_filter.mp ha
        have hane : a.getId ≠ some target := by
          intro hae
          simp [idEqStr_eq_true_iff.mpr hae] at hap
        refine remove_not_found now target a fun hta => ?_
        have hac : a ≠ c := fun hval => hane (hval ▸ hcid)
        exact idsArgs_nodup_disjoint args hnda a haargs c hc hac (some target) hta
          (hcid ▸ getId_mem_idsL (self_mem_subtreesL c))
      by_cases hcond :
          ((args.filter fun a => !idEqStr a.getId target).isEmpty && !args.isEmpty) = true
      · simp [removeNodeRecursive, replaceNode, deletionStep, getId_func, hcond]
      · simp [removeNodeRecursive, replaceNode, deletionStep, getId_func, hcond, hkeep]
    · rcases mem_subtreesArgsL.mp hBargs with ⟨a0, ha0, hBa0⟩
      have hnda0 : (idsL a0).Nodup :=
        List.Nodup.sublist (idsL_sublist_idsArgsL args ha0) hnda
      have htca0 : some target ∈ childIds a0 := hcid ▸ child_id_mem_childIds a0 B hBa0 c hc
      have hta0 : some target ∈ idsL a0 := childIds_subset_idsL a0 _ htca0
      have hfilter_all : ∀ a ∈ args, idEqStr a.getId target = false := by
        intro a ha
        rw [idEqStr_eq_false_iff]
        intro hae
        by_cases hval : a = a0
        · subst hval
          exact nodup_head_notin_childIds hnda0 (hae ▸ htca0)
        · exact idsArgs_nodup_disjoint args hnda a ha a0 ha0 hval (some target)
            (hae ▸ getId_mem_idsL (self_mem_subtreesL a)) hta0
      have hfiltered : (args.filter fun a => !idEqStr a.getId target) = args :=
        List.filter_eq_self.mpr fun a ha => by simp [hfilter_all a ha]
      have hcond : ((args.filter fun a => !idEqStr a.getId target).isEmpty && !args.isEmpty)
          = false := by
        rw [hfiltered]
        exact Bool.and_not_self _
      have hBida0 : B.getId ∈ idsL a0 := getId_mem_idsL hBa0
      have hine : ¬ (i = B.getId) := by
        intro hie
        exact hhead (by rw [hie]; exact (idsL_sublist_idsArgsL args ha0).subset hBida0)
      have hrem : removeNodeRecursive now target (.func n args i s)
          = .func n (removeNodeKeepArgs now target args) i s := by
        rw [removeNodeRecursive]
        simp only [hcond, Bool.false_eq_true, if_false]
      have hrep : replaceNode B.getId (deletionStep now target B) (.func n args i s)
          = .func n (replaceArgs B.getId (deletionStep now target B) args) i s := by
        simp [replaceNode, hine]
      rw [hrem, hrep, removeNodeKeepArgs_eq_filter_map, hfiltered, replaceArgs_eq_map]
      refine congrArg (fun bs => AstNode.func n bs i s) (List.map_congr_left fun a ha => ?_)
      by_cases hval : a = a0
      · subst hval
        exact ih a ha hnda0 B hBa0 c hc hcid
      · have hremid : removeNodeRecursive now target a = a := by
          refine remove_not_found now target a fun hta => ?_
          exact idsArgs_nodup_disjoint args hnda a ha a0 ha0 hval (some target) hta hta0
        have hrepid : replaceNode B.getId (deletionStep now target B) a = a := by
          refine replace_not_found _ _ a fun hBa => ?_
          exact idsArgs_nodup_disjoint args hnda a ha a0 ha0 hval B.getId hBa hBida0
        rw [hremid, hrepid]
  | hnum v i s =>
    intro _ B hB c hc _
    simp only [subtreesL, List.mem_singleton] at hB
    subst hB
    simp [IsChild] at hc
  | hvar n i s =>
    intro _ B hB c hc _
    simp only [subtreesL, List.mem_singleton] at hB
    subst hB
    simp [IsChild] at hc
  | hconst k i s =>
    intro _ B hB c hc _
    simp only [subtreesL, List.mem_singleton] at hB
    subst hB
    simp [IsChild] at hc

/-- Engine-level form of `remove_localizes`: `deleteNode` on a state holding
such a tree rewrites the tree by the local deletion step and nulls the
selection id (the root-id guard cannot fire because the target is a non-root
node's id). -/
theorem delete_localizes (now target : Str) (s : EngineState) (t B c : AstNode)
    (hast : s.ast = some t) (hnd : (idsL t).Nodup)
    (hB : B ∈ subtreesL t) (hc : IsChild c B) (hcid : c.getId = some target) :
    deleteNode now s target
      = ⟨some (replaceNode B.getId (deletionStep now target B) t), none⟩ := by
  have hroot : idEqStr t.getId target = false := by
    rw [idEqStr_eq_false_iff]
    intro hre
    exact nodup_head_notin_childIds hnd (hre ▸ (hcid ▸ child_id_mem_childIds t B hB c hc))
  rw [deleteNode, hast]
  simp [hroot, remove_localizes now target t hnd B hB c hc hcid]

/-- The stamped tree `Add(left = Number(3), right = Number(4))` of the claim's
concrete example, with ids `T`, `L`, `R`. -/
def c1Tree : AstNode :=
  .bin .ADDITION (.num (.fin 3) (some "L".data) false)
    (.num (.fin 4) (some "R".data) false) (some "T".data) false

/-- C1: for every stamped tree with distinct ids containing a binary node one
of whose direct children carries the target id, `delete` replaces that binary
node by its other child; in particular on `Add(Number(3), Number(4))` deleting
the left child's id yields exactly the `Number(4)` subtree and deleting the
right child's id yields exactly the `Number(3)` subtree. -/
theorem C1_delete_binary_child_promotes_other :
    (∀ (now target : Str) (s : EngineState) (t : AstNode) (k : BinType)
        (l r : AstNode) (bid : Option NodeId) (bsel : Bool),
      s.ast = some t → (idsL t).Nodup → AstNode.bin k l r bid bsel ∈ subtreesL t →
      ((l.getId = some target →
          deleteNode now s target = ⟨some (replaceNode bid r t), none⟩) ∧
        (l.getId ≠ some target → r.getId = some target →
          deleteNode now s target = ⟨some (replaceNode bid l t), none⟩)))
    ∧ (∀ (now : Str) (sel : Option NodeId),
        deleteNode now ⟨some c1Tree, sel⟩ "L".data
          = ⟨some (.num (.fin 4) (some "R".data) false), none⟩)
    ∧ (∀ (now : Str) (sel : Option NodeId),
        deleteNode now ⟨some c1Tree, sel⟩ "R".data
          = ⟨some (.num (.fin 3) (some "L".data) false), none⟩) := by
  refine ⟨?_, fun now sel => rfl, fun now sel => rfl⟩
  intro now target s t k l r bid bsel hast hnd hB
  constructor
  · intro hl
    have h := delete_localizes now target s t (.bin k l r bid bsel) l hast hnd hB
      (Or.inl rfl) hl
    rw [h]
    simp [deletionStep, getId_bin, idEqStr_eq_true_iff.mpr hl]
  · intro hlne hr
    have h := delete_localizes now target s t (.bin k l r bid bsel) r hast hnd hB
      (Or.inr rfl) hr
    rw [h]
    simp [deletionStep, getId_bin, idEqStr_eq_false_iff.mpr hlne]

/-- Witness for C1: the general statement applied to the concrete
`Add(Number(3), Number(4))` tree and its left child's id. -/
theorem C1_witness :
    deleteNode "t7".data ⟨some c1Tree, none⟩ "L".data
      = ⟨some (.num (.fin 4) (some "R".data) false), none⟩ := by
  have h := (C1_delete_binary_child_promotes_other.1 "t7".data "L".data
    ⟨some c1Tree, none⟩ c1Tree .ADDITION (.num (.fin 3) (some "L".data) false)
    (.num (.fin 4) (some "R".data) false) (some "T".data) false rfl (by decide)
    (self_mem_subtreesL c1Tree)).1 rfl
  rw [h]
  rfl

/-- The stamped tree `Negate(expression = Number(5))` with ids `N`, `E`. -/
def c6Tree : AstNode :=
  .un .NEGATION (.num (.fin 5) (some "E".data) false) (some "N".data) false

/-- C6: deleting the id of a unary node's child replaces the unary node itself
by a `Number(0)` placeholder; in particular deleting the expression of
`Negate(Number(5))` leaves a bare `Number(0)` node at that position. -/
theorem C6_delete_unary_child_placeholder :
    (∀ (now target : Str) (s : EngineState) (t : AstNode) (k : UnType)
        (e : AstNode) (uid : Option NodeId) (usel : Bool),
      s.ast = some t → (idsL t).Nodup → AstNode.un k e uid usel ∈ subtreesL t →
      e.getId = some target →
      deleteNode now s target
        = ⟨some (replaceNode uid (placeholderNode now) t), none⟩)
    ∧ (∀ sel : Option NodeId,
        deleteNode "7".data ⟨some c6Tree, sel⟩ "E".data
          = ⟨some (.num (.fin 0) (some "placeholder_7".data) false), none⟩) := by
  refine ⟨?_, fun sel => rfl⟩
  intro now target s t k e uid usel hast hnd hB he
  have h := delete_localizes now target s t (.un k e uid usel) e hast hnd hB rfl he
  rw [h]
  simp [deletionStep, getId_un]

/-- Witness for C6: the general statement applied to `Negate(Number(5))`. -/
theorem C6_witness :
    deleteNode "7".data ⟨some c6Tree, none⟩ "E".data
      = ⟨some (.num (.fin 0) (some "placeholder_7".data) false), none⟩ := by
  have h := C6_delete_unary_child_placeholder.1 "7".data "E".data ⟨some c6Tree, none⟩
    c6Tree .NEGATION (.num (.fin 5) (some "E".data) false) (some "N".data) false rfl
    (by decide) (self_mem_subtreesL c6Tree) rfl
  rw [h]
  rfl

/-- The stamped tree `Func("SQRT", [Number(9)])` with ids `F`, `A`. -/
def c5Tree : AstNode :=
  .func "SQRT".data [.num (.fin 9) (some "A".data) false] (some "F".data) false

/-- C5: deleting the id of a function argument filters that argument out of the
argument sequence, re-inserting a single `Number(0)` placeholder when the
removal empties a previously non-empty list; in particular deleting the sole
argument of `Func("SQRT", [Number(9)])` yields `Func("SQRT", [Number(0)])`. -/
theorem C5_delete_function_argument :
    (∀ (now target : Str) (s : EngineState) (t : AstNode) (n : Str)
        (args : List AstNode) (fid : Option NodeId) (fsel : Bool) (a : AstNode),
      s.ast = some t → (idsL t).Nodup → AstNode.func n args fid fsel ∈ subtreesL t →
      a ∈ args → a.getId = some target →
      deleteNode now s target
        = ⟨some (replaceNode fid
            (.func n
              (if (args.filter fun x => !idEqStr x.getId target).isEmpty && !args.isEmpty
               then [placeholderNode now]
               else args.filter fun x => !idEqStr x.getId target) fid fsel) t), none⟩)
    ∧ (∀ sel : Option NodeId,
        deleteNode "3".data ⟨some c5Tree, sel⟩ "A".data
          = ⟨some (.func "SQRT".data [.num (.fin 0) (some "placeholder_3".data) false]
              (some "F".data) false), none⟩) := by
  refine ⟨?_, fun sel => rfl⟩
  intro now target s t n args fid fsel a hast hnd hB ha hacid
  have h := delete_localizes now target s t (.func n args fid fsel) a hast hnd hB ha hacid
  rw [h]
  simp only [deletionStep, getId_func]

/-- Witness for C5: the general statement applied to `Func("SQRT", [Number(9)])`. -/
theorem C5_witness :
    deleteNode "3".data ⟨some c5Tree, none⟩ "A".data
      = ⟨some (.func "SQRT".data [.num (.fin 0) (some "placeholder_3".data) false]
          (some "F".data) false), none⟩ := by
  have h := C5_delete_function_argument.1 "3".data "A".data ⟨some c5Tree, none⟩
    c5Tree "SQRT".data [.num (.fin 9) (some "A".data) false] (some "F".data) false
    (.num (.fin 9) (some "A".data) false) rfl (by decide) (self_mem_subtreesL c5Tree)
    (List.mem_singleton.mpr rfl) rfl
  rw [h]
  rfl

/-- Deleting with the root's own id is a complete no-op on the engine state. -/
theorem deleteNode_rootId_noop (now : Str) (s : EngineState) (t : AstNode) (rid : NodeId)
    (hast : s.ast = some t) (hrid : t.getId = some rid) :
    deleteNode now s rid = s := by
  obtain ⟨ast, sel⟩ := s
  simp only at hast
  subst hast
  simp [deleteNode, idEqStr_eq_true_iff.mpr hrid]

/-- Deleting an id that occurs nowhere in the tree leaves the tree itself
(structurally) unchanged but nulls the selection id. -/
theorem deleteNode_miss (now target : Str) (s : EngineState) (t : AstNode)
    (hast : s.ast = some t) (hmiss : some target ∉ idsL t) :
    deleteNode now s target = ⟨some t, none⟩ := by
  obtain ⟨ast, sel⟩ := s
  simp only at hast
  subst hast
  have hne : idEqStr t.getId target = false :=
    idEqStr_eq_false_iff.mpr fun hc => hmiss (hc ▸ getId_mem_idsL (self_mem_subtreesL t))
  simp [deleteNode, hne, remove_not_found now target t hmiss]

/-- C3 counterexample: deleting an id that matches no node is *not* a complete
no-op — the tree survives but the current selection id is reset to null. -/
theorem C3_counterexample_miss_clears_selection :
    deleteNode "9".data ⟨some c1Tree, some "L".data⟩ "ZZ".data
      ≠ ⟨some c1Tree, some "L".data⟩ := by
  intro h
  have h2 := congrArg EngineState.selectedNodeId h
  exact Option.noConfusion (show (none : Option NodeId) = some "L".data from h2)

/-- C3 (amended): deleting with the root's id leaves tree and selection
unchanged; deleting an id that matches no node leaves the tree (structurally)
unchanged but clears the selection id. -/
theorem C3_amended_delete_noop_behaviour :
    (∀ (now : Str) (s : EngineState) (t : AstNode) (rid : NodeId),
      s.ast = some t → t.getId = some rid → deleteNode now s rid = s)
    ∧ (∀ (now target : Str) (s : EngineState) (t : AstNode),
      s.ast = some t → some target ∉ idsL t → deleteNode now s target = ⟨some t, none⟩) :=
  ⟨deleteNode_rootId_noop, deleteNode_miss⟩

/-- Witness for C3 (amended), at the stamped `Add(Number(3), Number(4))` tree:
root-id deletion is untouched, unknown-id deletion keeps the tree and nulls
the selection. -/
theorem C3_witness :
    deleteNode "9".data ⟨some c1Tree, some "L".data⟩ "T".data
        = ⟨some c1Tree, some "L".data⟩
    ∧ deleteNode "9".data ⟨some c1Tree, some "L".data⟩ "ZZ".data = ⟨some c1Tree, none⟩ :=
  ⟨C3_amended_delete_noop_behaviour.1 "9".data ⟨some c1Tree, some "L".data⟩ c1Tree
      "T".data rfl rfl,
    C3_amended_delete_noop_behaviour.2 "9".data "ZZ".data
      ⟨some c1Tree, some "L".data⟩ c1Tree rfl (by decide)⟩

/-- C4 counterexample: deleting the id of a direct child of the root binary
node *does* remove the input root — the result's root is the promoted child,
not the original root. -/
theorem C4_counterexample_root_replaced :
    stateRootId (deleteNode "9".data ⟨some c1Tree, none⟩ "L".data)
      ≠ stateRootId ⟨some c1Tree, none⟩ := by decide

/-- C4 (amended): the root can never be the *deletion target*: deleting with
the root's own id returns the state unchanged, so the root of the result is
the root of the input. -/
theorem C4_amended_root_never_deletion_target :
    ∀ (now : Str) (s : EngineState) (t : AstNode) (rid : NodeId),
      s.ast = some t → t.getId = some rid →
      deleteNode now s rid = s ∧ stateRootId (deleteNode now s rid) = stateRootId s := by
  intro now s t rid hast hrid
  have h := deleteNode_rootId_noop now s t rid hast hrid
  exact ⟨h, by rw [h]⟩

/-- Witness for C4 (amended) at the stamped `Add(Number(3), Number(4))` tree. -/
theorem C4_witness :
    deleteNode "9".data ⟨some c1Tree, none⟩ "T".data = ⟨some c1Tree, none⟩ :=
  (C4_amended_root_never_deletion_target "9".data ⟨some c1Tree, none⟩ c1Tree
    "T".data rfl rfl).1

theorem head_ne_of_func_msg (n : Str) :
    ("Function ".data ++ (n ++ " has no arguments".data)) ≠ "Invalid number value".data := by
  intro h
  have h2 := congrArg List.head? h
  rw [show "Function ".data = 'F' :: "unction ".data from rfl,
    show "Invalid number value".data = 'I' :: "nvalid number value".data from rfl] at h2
  simp at h2

theorem nanLeafCount_bin (k l r i s) :
    nanLeafCount (.bin k l r i s) = nanLeafCount l + nanLeafCount r := by
  simp [nanLeafCount, subtreesL, List.countP_cons, List.countP_append, isNanNumNode]

theorem nanLeafCount_un (k e i s) : nanLeafCount (.un k e i s) = nanLeafCount e := by
  simp [nanLeafCount, subtreesL, List.countP_cons, isNanNumNode]

theorem nanLeafCount_func (n args i s) :
    nanLeafCount (.func n args i s) = (subtreesArgsL args).countP isNanNumNode := by
  simp [nanLeafCount, subtreesL, List.countP_cons, isNanNumNode]

theorem nanLeafCount_num (v i s) :
    nanLeafCount (.num v i s) = if jsIsNaN v then 1 else 0 := by
  simp [nanLeafCount, subtreesL, List.countP_cons, isNanNumNode]

theorem nanLeafCount_varRef (n i s) : nanLeafCount (.varRef n i s) = 0 := by
  simp [nanLeafCount, subtreesL, List.countP_cons, isNanNumNode]

theorem nanLeafCount_const (k i s) : nanLeafCount (.const k i s) = 0 := by
  simp [nanLeafCount, subtreesL, List.countP_cons, isNanNumNode]

/-- The diagnostics list of `validateFormula` contains the `Invalid number
value` message exactly once per `NaN` `Number` leaf. -/
theorem validate_invalid_count :
    ∀ t : AstNode,
      (validateNode t).countP (fun e => decide (e = "Invalid number value".data))
        = nanLeafCount t := by
  intro t
  induction t using AstNode.inductionOn with
  | hbin k l r i s ihl ihr =>
    simp only [validateNode, List.countP_append, ihl, ihr, nanLeafCount_bin]
  | hun k e i s ihe =>
    simp only [validateNode, ihe, nanLeafCount_un]
  | hfunc n args i s ih =>
    have hargs : (validateArgs args).countP (fun e => decide (e = "Invalid number value".data))
        = (subtreesArgsL args).countP isNanNumNode := by
      induction args with
      | nil => rfl
      | cons a as iha =>
        have ha := ih a (by simp)
        rw [nanLeafCount] at ha
        simp only [validateArgs, subtreesArgsL, List.countP_append,
          ha, iha (fun b hb => ih b (by simp [hb]))]
    have h1 : ((if n.isEmpty then ["Function missing name".data] else []) : List Str).countP
        (fun e => decide (e = "Invalid number value".data)) = 0 := by
      by_cases hn : n.isEmpty <;> simp [hn]
    have h2 : ((if args.isEmpty then ["Function ".data ++ n ++ " has no arguments".data]
        else []) : List Str).countP
          (fun e => decide (e = "Invalid number value".data)) = 0 := by
      by_cases ha : args.isEmpty <;> simp [ha, head_ne_of_func_msg n]
    simp only [validateNode, List.countP_append, h1, h2, hargs, nanLeafCount_func]
    omega
  | hnum v i s =>
    rw [nanLeafCount_num]
    cases v <;> simp [validateNode, jsIsNaN, List.countP_cons]
  | hvar n i s =>
    rw [nanLeafCount_varRef]
    by_cases hn : n.isEmpty <;> simp [validateNode, hn, List.countP_cons]
  | hconst k i s =>
    rw [nanLeafCount_const]
    simp [validateNode]

/-- C9 counterexample: a `Number` leaf holding `Infinity` is *not* finite, yet
`validateFormula` reports no diagnostic (the source checks `isNaN` only, and
`isNaN(Infinity)` is `false`). -/
theorem C9_counterexample_infinity_not_reported :
    validateFormula (.num .posInf none false) = [] := rfl

/-- C9 (amended): `validateFormula` is a total function into diagnostic
strings (it cannot throw), and it reports the `Invalid number value`
diagnostic exactly once for every `Number` leaf holding `NaN` — but non-finite
`Infinity`/`-Infinity` values are not reported. -/
theorem C9_amended_nan_reported_as_diagnostic :
    (∀ t : AstNode,
      (validateFormula t).countP (fun e => decide (e = "Invalid number value".data))
        = nanLeafCount t)
    ∧ validateFormula (.num .nan none false) = ["Invalid number value".data] :=
  ⟨fun t => validate_invalid_count t, rfl⟩

/-- The precedence order as worded by the spec's parenthesization rule:
Add/Sub = 1, Mul/Div = 2, Pow = 3, Negate = 4; no other node kind has a listed
precedence.  (Spec-side definition, to be compared with the source-side
`precedenceOf` / `needsParentheses`.) -/
def specPrecedence : AstNode → Option Nat
  | .bin .ADDITION _ _ _ _ => some 1
  | .bin .SUBTRACTION _ _ _ _ => some 1
  | .bin .MULTIPLICATION _ _ _ _ => some 2
  | .bin .DIVISION _ _ _ _ => some 2
  | .bin .POWER _ _ _ _ => some 3
  | .un .NEGATION _ _ _ => some 4
  | _ => none

/-- The spec's wording of the wrapping rule: a child Binary node is wrapped
iff (i) its precedence is strictly lower than the parent's, or (ii) the
precedences are equal, the parent is Sub or Div, and the child occupies the
parent's right operand position. -/
def specParenWrap (parent child : AstNode) (childIsRight : Bool) : Prop :=
  ∃ pp cp, specPrecedence parent = some pp ∧ specPrecedence child = some cp ∧
    (cp < pp ∨
      (cp = pp ∧
        (∃ l r i s, parent = AstNode.bin .SUBTRACTION l r i s
          ∨ parent = AstNode.bin .DIVISION l r i s) ∧
        childIsRight = true))

/-- C2: a binary child is rendered wrapped in parentheses exactly when
`needsParentheses` says so, and `needsParentheses` holds exactly under the
spec's condition (i) ∨ (ii); in particular `Sub(10, Sub(5, 2))` renders as
`10 - (5 - 2)` and `Add(Mul(2, 3), 4)` renders as `2 * 3 + 4`. -/
theorem C2_parenthesization_iff :
    (∀ (k : BinType) (l r : AstNode) (i : Option NodeId) (s : Bool)
        (p : AstNode) (b : Bool),
      visit (.bin k l r i s) (some (p, b))
        = if needsParentheses p (.bin k l r i s) b
          then '(' :: (visit (.bin k l r i s) none ++ [')'])
          else visit (.bin k l r i s) none)
    ∧ (∀ (p c : AstNode) (b : Bool), isBinaryOperation c = true →
        (needsParentheses p c b = true ↔ specParenWrap p c b))
    ∧ buildFormula (some (.bin .SUBTRACTION (.num (.fin 10) none false)
        (.bin .SUBTRACTION (.num (.fin 5) none false) (.num (.fin 2) none false)
          none false) none false)) = "10 - (5 - 2)".data
    ∧ buildFormula (some (.bin .ADDITION
        (.bin .MULTIPLICATION (.num (.fin 2) none false) (.num (.fin 3) none false)
          none false) (.num (.fin 4) none false) none false)) = "2 * 3 + 4".data := by
  refine ⟨?_, ?_, by decide, by decide⟩
  · intro k l r i s p b
    by_cases h : needsParentheses p (.bin k l r i s) b <;> simp [visit, h]
  · intro p c b hc
    cases c with
    | bin ck cl cr ci cs =>
      cases p with
      | bin pk pl pr pi ps =>
        cases pk <;> cases ck <;>
          simp [needsParentheses, precedenceOf, specParenWrap, specPrecedence]
      | un pk pe pi ps =>
        cases pk <;> cases ck <;>
          simp [needsParentheses, precedenceOf, specParenWrap, specPrecedence]
      | func pn pargs pi ps =>
        simp [needsParentheses, precedenceOf, specParenWrap, specPrecedence]
      | num pv pi ps =>
        simp [needsParentheses, precedenceOf, specParenWrap, specPrecedence]
      | varRef pn pi ps =>
        simp [needsParentheses, precedenceOf, specParenWrap, specPrecedence]
      | const pk pi ps =>
        simp [needsParentheses, precedenceOf, specParenWrap, specPrecedence]
    | un ck ce ci cs => simp [isBinaryOperation] at hc
    | func cn cargs ci cs => simp [isBinaryOperation] at hc
    | num cv ci cs => simp [isBinaryOperation] at hc
    | varRef cn ci cs => simp [isBinaryOperation] at hc
    | const ck ci cs => simp [isBinaryOperation] at hc

/-- The `Sub(Number(5), Number(2))` child of the C2 example. -/
def c2Child : AstNode :=
  .bin .SUBTRACTION (.num (.fin 5) none false) (.num (.fin 2) none false) none false

/-- The `Sub(Number(10), Sub(Number(5), Number(2)))` parent of the C2 example. -/
def c2Parent : AstNode :=
  .bin .SUBTRACTION (.num (.fin 10) none false) c2Child none false

/-- Witness for C2: the wrapping equation and the spec-equivalence of
`needsParentheses`, instantiated at the right child of `Sub(10, Sub(5, 2))`. -/
theorem C2_witness :
    (needsParentheses c2Parent c2Child true = true ↔ specParenWrap c2Parent c2Child true)
    ∧ visit c2Child (some (c2Parent, true))
        = if needsParentheses c2Parent c2Child true
          then '(' :: (visit c2Child none ++ [')'])
          else visit c2Child none :=
  ⟨C2_parenthesization_iff.2.1 c2Parent c2Child true rfl,
    C2_parenthesization_iff.1 .SUBTRACTION (.num (.fin 5) none false)
      (.num (.fin 2) none false) none false c2Parent true⟩

/-- C10: the visitor renders a `Paren` unary node as `"(<expr>)"` and a
`Negate` unary node as `"-<expr>"`, except that a `Negate` whose child is a
Binary node renders as `"-(<expr>)"` (around the child's already-rendered
text); concretely `Negate(Number(5))` renders as `-5` and
`Paren(Add(2, 3))` as `(2 + 3)`. -/
theorem C10_unary_rendering :
    (∀ (e : AstNode) (i : Option NodeId) (s : Bool) (ctx : Option (AstNode × Bool)),
      visit (.un .PAREN e i s) ctx
        = '(' :: (visit e (some (.un .PAREN e i s, false)) ++ [')']))
    ∧ (∀ (e : AstNode) (i : Option NodeId) (s : Bool) (ctx : Option (AstNode × Bool)),
        isBinaryOperation e = true →
        visit (.un .NEGATION e i s) ctx
          = '-' :: '(' :: (visit e (some (.un .NEGATION e i s, false)) ++ [')']))
    ∧ (∀ (e : AstNode) (i : Option NodeId) (s : Bool) (ctx : Option (AstNode × Bool)),
        isBinaryOperation e = false →
        visit (.un .NEGATION e i s) ctx
          = '-' :: visit e (some (.un .NEGATION e i s, false)))
    ∧ buildFormula (some (.un .NEGATION (.num (.fin 5) none false) none false)) = "-5".data
    ∧ buildFormula (some (.un .PAREN (.bin .ADDITION (.num (.fin 2) none false)
        (.num (.fin 3) none false) none false) none false)) = "(2 + 3)".data := by
  refine ⟨?_, ?_, ?_, by decide, by decide⟩
  · intro e i s ctx
    rfl
  · intro e i s ctx hb
    cases e with
    | bin k l r i' s' => rfl
    | un k e' i' s' => simp [isBinaryOperation] at hb
    | func n as i' s' => simp [isBinaryOperation] at hb
    | num v i' s' => simp [isBinaryOperation] at hb
    | varRef n i' s' => simp [isBinaryOperation] at hb
    | const k i' s' => simp [isBinaryOperation] at hb
  · intro e i s ctx hb
    cases e with
    | bin k l r i' s' => simp [isBinaryOperation] at hb
    | un k e' i' s' => rfl
    | func n as i' s' => rfl
    | num v i' s' => rfl
    | varRef n i' s' => rfl
    | const k i' s' => rfl

/-- Witness for C10: the `Negate`-of-binary and `Negate`-of-leaf equations at
concrete nodes (note the doubled parentheses around a wrapped binary child). -/
theorem C10_witness :
    visit (.un .NEGATION (.bin .ADDITION (.num (.fin 2) none false)
        (.num (.fin 3) none false) none false) none false) none
      = '-' :: '(' :: (visit (.bin .ADDITION (.num (.fin 2) none false)
          (.num (.fin 3) none false) none false)
          (some (.un .NEGATION (.bin .ADDITION (.num (.fin 2) none false)
            (.num (.fin 3) none false) none false) none false, false)) ++ [')'])
    ∧ visit (.un .NEGATION (.num (.fin 5) none false) none false) none
      = '-' :: visit (.num (.fin 5) none false)
          (some (.un .NEGATION (.num (.fin 5) none false) none false, false)) :=
  ⟨C10_unary_rendering.2.1 (.bin .ADDITION (.num (.fin 2) none false)
      (.num (.fin 3) none false) none false) none false none rfl,
    C10_unary_rendering.2.2.1 (.num (.fin 5) none false) none false none rfl⟩

theorem getSelected_update (n : AstNode) (sid : Option NodeId) :
    (updateNodeSelection n sid).getSelected = idEqOpt n.getId sid := by
  cases n <;> rfl

theorem getId_update (n : AstNode) (sid : Option NodeId) :
    (updateNodeSelection n sid).getId = n.getId := by
  cases n <;> rfl

theorem subtrees_update (sid : Option NodeId) :
    ∀ t : AstNode, subtreesL (updateNodeSelection t sid)
      = (subtreesL t).map (fun n => updateNodeSelection n sid) := by
  intro t
  induction t using AstNode.inductionOn with
  | hbin k l r i s ihl ihr =>
    simp [updateNodeSelection, subtreesL, ihl, ihr]
  | hun k e i s ihe =>
    simp [updateNodeSelection, subtreesL, ihe]
  | hfunc n args i s ih =>
    have hargs : subtreesArgsL (updateNodeSelectionArgs args sid)
        = (subtreesArgsL args).map (fun n => updateNodeSelection n sid) := by
      induction args with
      | nil => rfl
      | cons a as iha =>
        simp [updateNodeSelectionArgs, subtreesArgsL, ih a (by simp),
          iha (fun b hb => ih b (by simp [hb]))]
    simp [updateNodeSelection, subtreesL, hargs]
  | hnum v i s => rfl
  | hvar n i s => rfl
  | hconst k i s => rfl

theorem idEqOpt_none (o : Option NodeId) : idEqOpt o none = false := by
  cases o <;> rfl

theorem idEqOpt_some (o : Option NodeId) (x : NodeId) :
    idEqOpt o (some x) = decide (o = some x) := by
  cases o <;> simp [idEqOpt]

/-- The selected-node count after `updateNodeSelection` is the number of nodes
whose id strictly equals the requested selection id. -/
theorem selCount_update (t : AstNode) (sid : Option NodeId) :
    selCount (updateNodeSelection t sid) = (idsL t).countP (fun o => idEqOpt o sid) := by
  rw [selCount, subtrees_update, List.countP_map, idsL, List.countP_map]
  refine List.countP_congr fun n _ => ?_
  simp [Function.comp, getSelected_update]

/-- Reachable engine states: any interleaving of the service's operations from
the initial empty state, with arbitrary random supplies and timestamps. -/
inductive Reach : EngineState → Prop where
  | init : Reach ⟨none, none⟩
  | set (σ : Nat → Str) (raw : AstNode) (s : EngineState) :
      Reach s → Reach (setAst σ s raw)
  | sel (oid : Option NodeId) (s : EngineState) :
      Reach s → Reach (selectNode s oid)
  | del (now target : Str) (s : EngineState) :
      Reach s → Reach (deleteNode now s target)
  | clear (s : EngineState) : Reach s → Reach (clearAst s)

/-- The raw tree `F(Negate(Number(1)), Negate(Number(2)))` used to reach a
state with two selected nodes. -/
def c7Raw : AstNode :=
  .func "F".data
    [.un .NEGATION (.num (.fin 1) none false) none false,
      .un .NEGATION (.num (.fin 2) none false) none false] none false

/-- A concrete reachable state: adopt `c7Raw`, delete both negation children
with the *same* `Date.now()` timestamp (two placeholders then share the id
`placeholder_0`), and select that shared id. -/
def c7State : EngineState :=
  selectNode
    (deleteNode "0".data
      (deleteNode "0".data (setAst (fun _ => "x".data) ⟨none, none⟩ c7Raw)
        "A0_E_NUMBER_x".data)
      "A1_E_NUMBER_x".data)
    (some "placeholder_0".data)

/-- C7 counterexample: a state reachable by the engine's own operations in
which two nodes are selected at once (duplicate placeholder ids defeat
selection exclusivity). -/
theorem C7_counterexample_two_selected :
    Reach c7State ∧ stateSelCount c7State = 2 :=
  ⟨Reach.sel _ _ (Reach.del _ _ _ (Reach.del _ _ _ (Reach.set _ _ _ Reach.init))),
    by decide⟩

theorem addNodeIdsArgs_selected_false (σ : Nat → Str) :
    ∀ as : List AstNode,
      (∀ a ∈ as, ∀ (path : Str) (c : Nat),
        ∀ n ∈ subtreesL (addNodeIds σ a path c).1, n.getSelected = false) →
      ∀ (path : Str) (idx c : Nat),
        ∀ n ∈ subtreesArgsL (addNodeIdsArgs σ as path idx c).1, n.getSelected = false := by
  intro as
  induction as with
  | nil => intro _ path idx c n hn; simp [addNodeIdsArgs, subtreesArgsL] at hn
  | cons a as ih =>
    intro h path idx c n hn
    simp only [addNodeIdsArgs, subtreesArgsL, List.mem_append] at hn
    rcases hn with h1 | h2
    · exact h a (by simp) _ _ n h1
    · exact ih (fun b hb => h b (by simp [hb])) path (idx + 1) _ n h2

/-- `addNodeIds` clears every node's selection flag. -/
theorem addNodeIds_selected_false (σ : Nat → Str) :
    ∀ (t : AstNode) (path : Str) (c : Nat),
      ∀ n ∈ subtreesL (addNodeIds σ t path c).1, n.getSelected = false := by
  intro t
  induction t using AstNode.inductionOn with
  | hbin k l r i s ihl ihr =>
    intro path c n hn
    simp only [addNodeIds, subtreesL, List.mem_cons, List.mem_append] at hn
    rcases hn with rfl | h | h
    · rfl
    · exact ihl _ _ n h
    · exact ihr _ _ n h
  | hun k e i s ihe =>
    intro path c n hn
    simp only [addNodeIds, subtreesL, List.mem_cons] at hn
    rcases hn with rfl | h
    · rfl
    · exact ihe _ _ n h
  | hfunc nm args i s ih =>
    intro path c n hn
    simp only [addNodeIds, subtreesL, List.mem_cons] at hn
    rcases hn with rfl | h
    · rfl
    · exact addNodeIdsArgs_selected_false σ args ih path 0 (c + 1) n h
  | hnum v i s =>
    intro path c n hn
    simp only [addNodeIds, subtreesL, List.mem_singleton] at hn
    subst hn
    rfl
  | hvar nm i s =>
    intro path c n hn
    simp only [addNodeIds, subtreesL, List.mem_singleton] at hn
    subst hn
    rfl
  | hconst k i s =>
    intro path c n hn
    simp only [addNodeIds, subtreesL, List.mem_singleton] at hn
    subst hn
    rfl

theorem mem_subtreesArgs_keepArgs (now target : Str) :
    ∀ as : List AstNode, ∀ n ∈ subtreesArgsL (removeNodeKeepArgs now target as),
      ∃ a ∈ as, n ∈ subtreesL (removeNodeRecursive now target a) := by
  intro as
  induction as with
  | nil => intro n hn; simp [removeNodeKeepArgs, subtreesArgsL] at hn
  | cons a as ih =>
    intro n hn
    rw [removeNodeKeepArgs] at hn
    by_cases ha : idEqStr a.getId target
    · rw [if_pos ha] at hn
      obtain ⟨b, hb, hnb⟩ := ih n hn
      exact ⟨b, List.mem_cons_of_mem _ hb, hnb⟩
    · rw [if_neg ha] at hn
      rw [subtreesArgsL] at hn
      rcases List.mem_append.mp hn with h1 | h2
      · exact ⟨a, List.mem_cons_self _ _, h1⟩
      · obtain ⟨b, hb, hnb⟩ := ih n h2
        exact ⟨b, List.mem_cons_of_mem _ hb, hnb⟩

/-- Every node still selected after a deletion pass corresponds (same id, same
flag) to a selected node of the input tree: deletion keeps surviving nodes'
`(id, selected)` pairs and inserts only unselected placeholders. -/
theorem remove_selected_source (now target : Str) :
    ∀ t : AstNode, ∀ n ∈ subtreesL (removeNodeRecursive now target t),
      n.getSelected = true →
      ∃ m ∈ subtreesL t, m.getSelected = true ∧ n.getId = m.getId := by
  intro t
  induction t using AstNode.inductionOn with
  | hbin k l r i s ihl ihr =>
    intro n hn hsel
    by_cases hl : idEqStr l.getId target
    · rw [removeNodeRecursive, if_pos hl] at hn
      exact ⟨n, List.mem_cons_of_mem _ (List.mem_append_right _ hn), hsel, rfl⟩
    · by_cases hr : idEqStr r.getId target
      · rw [removeNodeRecursive, if_neg hl, if_pos hr] at hn
        exact ⟨n, List.mem_cons_of_mem _ (List.mem_append_left _ hn), hsel, rfl⟩
      · rw [removeNodeRecursive, if_neg hl, if_neg hr] at hn
        rw [subtreesL] at hn
        rcases List.mem_cons.mp hn with rfl | hn'
        · exact ⟨.bin k l r i s, List.mem_cons_self _ _, hsel, rfl⟩
        · rcases List.mem_append.mp hn' with h1 | h2
          · obtain ⟨m, hm, hmsel, hid⟩ := ihl n h1 hsel
            exact ⟨m, List.mem_cons_of_mem _ (List.mem_append_left _ hm), hmsel, hid⟩
          · obtain ⟨m, hm, hmsel, hid⟩ := ihr n h2 hsel
            exact ⟨m, List.mem_cons_of_mem _ (List.mem_append_right _ hm), hmsel, hid⟩
  | hun k e i s ihe =>
    intro n hn hsel
    by_cases he : idEqStr e.getId target
    · rw [removeNodeRecursive, if_pos he] at hn
      simp only [placeholderNode, subtreesL, List.mem_singleton] at hn
      subst hn
      cases hsel
    · rw [removeNodeRecursive, if_neg he] at hn
      rw [subtreesL] at hn
      rcases List.mem_cons.mp hn with rfl | hn'
      · exact ⟨.un k e i s, List.mem_cons_self _ _, hsel, rfl⟩
      · obtain ⟨m, hm, hmsel, hid⟩ := ihe n hn' hsel
        exact ⟨m, List.mem_cons_of_mem _ hm, hmsel, hid⟩
  | hfunc nm args i s ih =>
    intro n hn hsel
    by_cases hcond :
        ((args.filter fun a => !idEqStr a.getId target).isEmpty && !args.isEmpty) = true
    · rw [removeNodeRecursive] at hn
      rw [if_pos hcond] at hn
      rw [subtreesL] at hn
      rcases List.mem_cons.mp hn with rfl | hn'
      · exact ⟨.func nm args i s, List.mem_cons_self _ _, hsel, rfl⟩
      · simp only [placeholderNode, subtreesArgsL, subtreesL, List.mem_append,
          List.mem_singleton, List.not_mem_nil, or_false] at hn'
        subst hn'
        cases hsel
    · rw [removeNodeRecursive] at hn
      rw [if_neg hcond] at hn
      rw [subtreesL] at hn
      rcases List.mem_cons.mp hn with rfl | hn'
      · exact ⟨.func nm args i s, List.mem_cons_self _ _, hsel, rfl⟩
      · obtain ⟨a, ha, hna⟩ := mem_subtreesArgs_keepArgs now target args n hn'
        obtain ⟨m, hm, hmsel, hid⟩ := ih a ha n hna hsel
        exact ⟨m, List.mem_cons_of_mem _ (mem_subtreesArgsL.mpr ⟨a, ha, hm⟩), hmsel, hid⟩
  | hnum v i s =>
    intro n hn hsel
    simp only [removeNodeRecursive, subtreesL, List.mem_singleton] at hn
    subst hn
    exact ⟨_, List.mem_cons_self _ _, hsel, rfl⟩
  | hvar nm i s =>
    intro n hn hsel
    simp only [removeNodeRecursive, subtreesL, List.mem_singleton] at hn
    subst hn
    exact ⟨_, List.mem_cons_self _ _, hsel, rfl⟩
  | hconst k i s =>
    intro n hn hsel
    simp only [removeNodeRecursive, subtreesL, List.mem_singleton] at hn
    subst hn
    exact ⟨_, List.mem_cons_self _ _, hsel, rfl⟩

/-- In every reachable state, all selected nodes of the current tree share one
id value (the id used by the most recent `selectNode`). -/
theorem reach_shared_selid :
    ∀ s : EngineState, Reach s → ∀ t : AstNode, s.ast = some t →
      ∃ x : NodeId, ∀ n ∈ subtreesL t, n.getSelected = true → n.getId = some x := by
  intro s hs
  induction hs with
  | init => intro t ht; simp at ht
  | set σ raw s' _ _ =>
    intro t ht
    simp only [setAst, Option.some.injEq] at ht
    subst ht
    exact ⟨[], fun n hn hsel =>
      absurd hsel (by simp [addNodeIds_selected_false σ raw [] 0 n hn])⟩
  | sel oid s' _ ih =>
    intro t ht
    cases hast : s'.ast with
    | none => rw [selectNode, hast] at ht; cases ht
    | some t0 =>
      rw [selectNode, hast] at ht
      simp only [Option.map_some', Option.some.injEq] at ht
      subst ht
      cases oid with
      | none =>
        refine ⟨[], fun n hn hsel => ?_⟩
        rw [subtrees_update] at hn
        obtain ⟨m, _, rfl⟩ := List.mem_map.mp hn
        rw [getSelected_update, idEqOpt_none] at hsel
        cases hsel
      | some x =>
        refine ⟨x, fun n hn hsel => ?_⟩
        rw [subtrees_update] at hn
        obtain ⟨m, _, rfl⟩ := List.mem_map.mp hn
        rw [getSelected_update, idEqOpt_some] at hsel
        rw [getId_update]
        exact of_decide_eq_true hsel
  | del now target s' _ ih =>
    intro t ht
    cases hast : s'.ast with
    | none =>
      have hd : deleteNode now s' target = s' := by rw [deleteNode, hast]
      rw [hd, hast] at ht
      cases ht
    | some t0 =>
      by_cases hroot : idEqStr t0.getId target = true
      · have hd : deleteNode now s' target = s' := by
          rw [deleteNode, hast]
          exact if_pos hroot
        rw [hd] at ht
        exact ih t ht
      · have hd : deleteNode now s' target
            = ⟨some (removeNodeRecursive now target t0), none⟩ := by
          rw [deleteNode, hast]
          exact if_neg hroot
        rw [hd] at ht
        simp only [Option.some.injEq] at ht
        subst ht
        obtain ⟨x, hx⟩ := ih t0 hast
        refine ⟨x, fun n hn hsel => ?_⟩
        obtain ⟨m, hm, hmsel, hid⟩ := remove_selected_source now target t0 n hn hsel
        rw [hid]
        exact hx m hm hmsel
  | clear s' _ _ =>
    intro t ht
    simp [clearAst] at ht

/-- In a duplicate-free list, at most one entry equals any given value. -/
theorem countP_eq_le_one_of_nodup {α : Type} [DecidableEq α] (l : List α)
    (hnd : l.Nodup) (a : α) : l.countP (fun o => decide (o = a)) ≤ 1 := by
  induction l with
  | nil => simp
  | cons b l ih =>
    rw [List.countP_cons]
    rcases List.nodup_cons.mp hnd with ⟨hb, hl⟩
    by_cases h : b = a
    · subst h
      have hz : l.countP (fun o => decide (o = b)) = 0 :=
        List.countP_eq_zero.mpr fun o ho hp => hb ((of_decide_eq_true hp) ▸ ho)
      simp [hz]
    · simp [h, ih hl]

/-- With pairwise-distinct ids, a tree whose selected nodes all share one id
has at most one selected node. -/
theorem selCount_le_one_of_shared {t : AstNode}
    (hnd : (idsL t).Nodup)
    (hsh : ∃ x : NodeId, ∀ n ∈ subtreesL t, n.getSelected = true → n.getId = some x) :
    selCount t ≤ 1 := by
  obtain ⟨x, hx⟩ := hsh
  have h1 : selCount t ≤ (idsL t).countP (fun o => decide (o = some x)) := by
    rw [selCount, idsL, List.countP_map]
    refine List.countP_mono_left fun n hn hp => ?_
    simp only [Function.comp_apply]
    exact decide_eq_true (hx n hn hp)
  exact le_trans h1 (countP_eq_le_one_of_nodup _ hnd (some x))

/-- C7 (amended): on a tree with pairwise-distinct ids, `selectNode` leaves
exactly one node selected when the id matches some node and zero when the id
is null or unmatched; and every reachable state whose tree still has
pairwise-distinct ids has at most one selected node.  (Without the
distinct-ids proviso the exclusivity fails: deletions can mint duplicate
placeholder ids, see the counterexample.) -/
theorem C7_amended_selection_exclusivity :
    (∀ (s : EngineState) (t : AstNode) (x : NodeId),
      s.ast = some t → (idsL t).Nodup →
      (((∃ n ∈ subtreesL t, n.getId = some x) →
          stateSelCount (selectNode s (some x)) = 1)
        ∧ ((∀ n ∈ subtreesL t, n.getId ≠ some x) →
          stateSelCount (selectNode s (some x)) = 0)))
    ∧ (∀ (s : EngineState) (t : AstNode), s.ast = some t →
        stateSelCount (selectNode s none) = 0)
    ∧ (∀ s : EngineState, Reach s → ∀ t : AstNode, s.ast = some t →
        (idsL t).Nodup → selCount t ≤ 1) := by
  refine ⟨?_, ?_, fun s hs t hast hnd => selCount_le_one_of_shared hnd
    (reach_shared_selid s hs t hast)⟩
  · intro s t x hast hnd
    have hsc : stateSelCount (selectNode s (some x))
        = (idsL t).countP (fun o => idEqOpt o (some x)) := by
      rw [selectNode, hast]
      simp only [Option.map_some']
      show selCount (updateNodeSelection t (some x)) = _
      exact selCount_update t (some x)
    have hconv : (idsL t).countP (fun o => idEqOpt o (some x))
        = (idsL t).countP (fun o => decide (o = some x)) :=
      List.countP_congr fun o _ => by simp [idEqOpt_some]
    constructor
    · intro ⟨n, hn, hid⟩
      have hmem : some x ∈ idsL t := hid ▸ getId_mem_idsL hn
      have hpos : 0 < (idsL t).countP (fun o => decide (o = some x)) := by
        rw [List.countP_pos_iff]
        exact ⟨some x, hmem, by simp⟩
      have hle := countP_eq_le_one_of_nodup _ hnd (some x)
      rw [hsc, hconv]
      omega
    · intro hnone
      rw [hsc, hconv]
      refine List.countP_eq_zero.mpr fun o ho hp => ?_
      obtain ⟨n, hn, rfl⟩ := List.mem_map.mp ho
      exact hnone n hn (of_decide_eq_true hp)
  · intro s t hast
    rw [selectNode, hast]
    simp only [Option.map_some']
    show selCount (updateNodeSelection t none) = 0
    rw [selCount_update t none]
    exact List.countP_eq_zero.mpr fun o _ => by simp [idEqOpt_none]

/-- Witness for C7 (amended): selection counts on the stamped
`Add(Number(3), Number(4))` tree and the exclusivity bound on a freshly
adopted tree. -/
theorem C7_witness :
    stateSelCount (selectNode ⟨some c1Tree, none⟩ (some "L".data)) = 1
    ∧ stateSelCount (selectNode ⟨some c1Tree, none⟩ (some "QQ".data)) = 0
    ∧ stateSelCount (selectNode ⟨some c1Tree, none⟩ none) = 0
    ∧ selCount (addNodeIds (fun _ => "x".data) c7Raw [] 0).1 ≤ 1 := by
  refine ⟨?_, ?_, ?_, ?_⟩
  · exact (C7_amended_selection_exclusivity.1 ⟨some c1Tree, none⟩ c1Tree "L".data rfl
      (by decide)).1
      ⟨.num (.fin 3) (some "L".data) false,
        List.mem_cons_of_mem _ (List.mem_append_left _ (List.mem_cons_self _ _)), rfl⟩
  · refine (C7_amended_selection_exclusivity.1 ⟨some c1Tree, none⟩ c1Tree "QQ".data rfl
      (by decide)).2 ?_
    intro n hn
    simp only [c1Tree, subtreesL, List.mem_cons, List.mem_append,
      List.not_mem_nil, or_false] at hn
    rcases hn with rfl | rfl | rfl <;> decide
  · exact C7_amended_selection_exclusivity.2.1 ⟨some c1Tree, none⟩ c1Tree rfl
  · exact C7_amended_selection_exclusivity.2.2
      (setAst (fun _ => "x".data) ⟨none, none⟩ c7Raw)
      (Reach.set (fun _ => "x".data) c7Raw ⟨none, none⟩ Reach.init)
      (addNodeIds (fun _ => "x".data) c7Raw [] 0).1 rfl (by decide)

/-- Numeric value of a decimal digit character. -/
def charVal (ch : Char) : Nat :=
  if ch = '0' then 0 else if ch = '1' then 1 else if ch = '2' then 2
  else if ch = '3' then 3 else if ch = '4' then 4 else if ch = '5' then 5
  else if ch = '6' then 6 else if ch = '7' then 7 else if ch = '8' then 8
  else 9

/-- Numeric value of a decimal digit string (most significant first). -/
def digitsVal (l : Str) : Nat := l.foldl (fun a ch => 10 * a + charVal ch) 0

theorem charVal_digitChar {n : Nat} (h : n < 10) : charVal (digitChar n) = n := by
  interval_cases n <;> rfl

theorem digitChar_ne_underscore (n : Nat) : digitChar n ≠ '_' := by
  unfold digitChar
  repeat' split
  all_goals decide

theorem digitsVal_go (l : Str) (a : Nat) :
    List.foldl (fun a ch => 10 * a + charVal ch) a l
      = a * 10 ^ l.length + digitsVal l := by
  induction l generalizing a with
  | nil => simp [digitsVal]
  | cons ch l ih =>
    rw [digitsVal, List.foldl_cons, List.foldl_cons, ih, ih (10 * 0 + charVal ch)]
    simp [List.length_cons]
    ring

theorem digitsVal_append (l : Str) (ch : Char) :
    digitsVal (l ++ [ch]) = 10 * digitsVal l + charVal ch := by
  rw [digitsVal, List.foldl_append, List.foldl_cons, List.foldl_nil]
  rw [digitsVal_go]
  simp

theorem digitsVal_natDigitsGo : ∀ (fuel n : Nat), n < fuel →
    digitsVal (natDigitsGo fuel n) = n := by
  intro fuel
  induction fuel with
  | zero => intro n h; omega
  | succ f ih =>
    intro n h
    rw [natDigitsGo]
    by_cases h10 : n < 10
    · rw [if_pos h10]
      simp [digitsVal, charVal_digitChar h10]
    · rw [if_neg h10]
      have hdiv : n / 10 < f := by
        have h1 : n / 10 < n := Nat.div_lt_self (by omega) (by omega)
        omega
      rw [digitsVal_append, ih (n / 10) hdiv, charVal_digitChar (Nat.mod_lt n (by omega))]
      omega

theorem natDigits_inj {i j : Nat} (h : natDigits i = natDigits j) : i = j := by
  have hi := digitsVal_natDigitsGo (i + 1) i (by omega)
  have hj := digitsVal_natDigitsGo (j + 1) j (by omega)
  rw [natDigits] at h
  rw [natDigits] at h
  rw [h] at hi
  omega

theorem natDigitsGo_no_underscore : ∀ (fuel n : Nat), '_' ∉ natDigitsGo fuel n := by
  intro fuel
  induction fuel with
  | zero => intro n; simp [natDigitsGo]
  | succ f ih =>
    intro n
    rw [natDigitsGo]
    by_cases h10 : n < 10
    · rw [if_pos h10]
      simp [digitChar_ne_underscore n]
      intro hc
      exact absurd hc.symm (digitChar_ne_underscore n)
    · rw [if_neg h10]
      intro hc
      rcases List.mem_append.mp hc with h1 | h2
      · exact ih (n / 10) h1
      · rw [List.mem_singleton] at h2
        exact absurd h2.symm (digitChar_ne_underscore (n % 10))

theorem natDigits_no_underscore (n : Nat) : '_' ∉ natDigits n :=
  natDigitsGo_no_underscore (n + 1) n

/-- Unique decomposition at the first underscore: if neither prefix contains
an underscore, equal concatenations split identically. -/
theorem underscore_split : ∀ (a b cs d : Str), '_' ∉ a → '_' ∉ cs →
    a ++ '_' :: b = cs ++ '_' :: d → a = cs ∧ b = d := by
  intro a
  induction a with
  | nil =>
    intro b cs d _ hc h
    cases cs with
    | nil => simp at h; exact ⟨rfl, h⟩
    | cons x xs =>
      rw [List.nil_append, List.cons_append] at h
      injection h with h1 h2
      exact absurd (h1 ▸ List.mem_cons_self x xs) (h1 ▸ hc)
  | cons x xs ih =>
    intro b cs d ha hc h
    cases cs with
    | nil =>
      rw [List.nil_append, List.cons_append] at h
      injection h with h1 _
      exact absurd (h1 ▸ List.mem_cons_self x xs) (h1 ▸ ha)
    | cons y ys =>
      rw [List.cons_append, List.cons_append] at h
      injection h with h1 h2
      subst h1
      have hxs : '_' ∉ xs := fun hm => ha (List.mem_cons_of_mem _ hm)
      have hys : '_' ∉ ys := fun hm => hc (List.mem_cons_of_mem _ hm)
      obtain ⟨h3, h4⟩ := ih b ys d hxs hys h2
      exact ⟨by rw [h3], h4⟩

theorem cons_append_ne {x y : Char} (hxy : x ≠ y) (rest tail su : Str) :
    (x :: rest) ++ tail ≠ y :: su := by
  intro h
  rw [List.cons_append] at h
  injection h with h1 _
  exact hxy h1

theorem binTypeStr_append_ne_L (k : BinType) (tail su : Str) :
    binTypeStr k ++ tail ≠ 'L' :: su := by
  cases k <;> exact cons_append_ne (by decide) _ _ _

theorem binTypeStr_append_ne_R (k : BinType) (tail su : Str) :
    binTypeStr k ++ tail ≠ 'R' :: su := by
  cases k <;> exact cons_append_ne (by decide) _ _ _

theorem unTypeStr_append_ne_E (k : UnType) (tail su : Str) :
    unTypeStr k ++ tail ≠ 'E' :: su := by
  cases k <;> exact cons_append_ne (by decide) _ _ _

theorem funcStr_append_ne_A (tail su : Str) :
    "FUNCTION".data ++ tail ≠ 'A' :: su :=
  cons_append_ne (by decide) _ _ _

/-- Ids generated for an argument list: pairwise distinct, and each of the
form `path ++ "A" ++ digits(j) ++ "_" ++ suffix` with `j` at least the
starting index. -/
theorem addNodeIdsArgs_ids_spec (σ : Nat → Str) :
    ∀ as : List AstNode,
      (∀ a ∈ as, ∀ (path : Str) (c : Nat),
        (idsL (addNodeIds σ a path c).1).Nodup ∧
        ∀ o ∈ idsL (addNodeIds σ a path c).1, ∃ su : Str, o = some (path ++ su)) →
      ∀ (path : Str) (idx c : Nat),
        (idsArgsL (addNodeIdsArgs σ as path idx c).1).Nodup ∧
        ∀ o ∈ idsArgsL (addNodeIdsArgs σ as path idx c).1,
          ∃ (j : Nat) (su : Str), idx ≤ j
            ∧ o = some (path ++ 'A' :: (natDigits j ++ '_' :: su)) := by
  intro as
  induction as with
  | nil =>
    intro _ path idx c
    constructor
    · simp [addNodeIdsArgs, idsArgsL_nil]
    · intro o ho
      simp [addNodeIdsArgs, idsArgsL_nil] at ho
  | cons a as ih =>
    intro h path idx c
    obtain ⟨hnd0, hpre0⟩ :=
      h a (by simp) (path ++ 'A' :: (natDigits idx ++ ['_'])) c
    obtain ⟨hndt, hpret⟩ := ih (fun b hb => h b (by simp [hb])) path (idx + 1)
      (addNodeIds σ a (path ++ 'A' :: (natDigits idx ++ ['_'])) c).2
    have hpre0' : ∀ o ∈ idsL (addNodeIds σ a (path ++ 'A' :: (natDigits idx ++ ['_'])) c).1,
        ∃ su : Str, o = some (path ++ 'A' :: (natDigits idx ++ '_' :: su)) := by
      intro o ho
      obtain ⟨su, hsu⟩ := hpre0 o ho
      refine ⟨su, ?_⟩
      rw [hsu]
      simp [List.append_assoc, List.cons_append]
    rw [addNodeIdsArgs]
    constructor
    · rw [idsArgsL_cons, List.nodup_append]
      refine ⟨hnd0, hndt, ?_⟩
      intro o ho0 hot
      obtain ⟨su1, h1⟩ := hpre0' o ho0
      obtain ⟨j, su2, hj, h2⟩ := hpret o hot
      rw [h1] at h2
      have h3 := List.append_cancel_left (Option.some.injEq _ _ ▸ h2 : _)
      injection h3 with _ h4
      obtain ⟨h5, _⟩ := underscore_split (natDigits idx) su1 (natDigits j) su2
        (natDigits_no_underscore idx) (natDigits_no_underscore j) h4
      have := natDigits_inj h5
      omega
    · intro o ho
      rw [idsArgsL_cons] at ho
      rcases List.mem_append.mp ho with h0 | ht
      · obtain ⟨su, hsu⟩ := hpre0' o h0
        exact ⟨idx, su, le_refl idx, hsu⟩
      · obtain ⟨j, su, hj, hsu⟩ := hpret o ht
        exact ⟨j, su, by omega, hsu⟩

/-- Ids generated by `addNodeIds`: pairwise distinct (for *any* random supply
— the structural-path prefixes alone already separate all positions), and each
id extends the call's path prefix. -/
theorem addNodeIds_ids_spec (σ : Nat → Str) :
    ∀ t : AstNode, ∀ (path : Str) (c : Nat),
      (idsL (addNodeIds σ t path c).1).Nodup ∧
      ∀ o ∈ idsL (addNodeIds σ t path c).1, ∃ su : Str, o = some (path ++ su) := by
  intro t
  induction t using AstNode.inductionOn with
  | hbin k l r i s ihl ihr =>
    intro path c
    obtain ⟨hndl, hprel⟩ := ihl (path ++ "L_".data) (c + 1)
    obtain ⟨hndr, hprer⟩ := ihr (path ++ "R_".data)
      (addNodeIds σ l (path ++ "L_".data) (c + 1)).2
    have hprel' : ∀ o ∈ idsL (addNodeIds σ l (path ++ "L_".data) (c + 1)).1,
        ∃ su : Str, o = some (path ++ 'L' :: '_' :: su) := by
      intro o ho
      obtain ⟨su, hsu⟩ := hprel o ho
      exact ⟨su, by rw [hsu]; simp⟩
    have hprer' : ∀ o ∈ idsL (addNodeIds σ r (path ++ "R_".data)
        (addNodeIds σ l (path ++ "L_".data) (c + 1)).2).1,
        ∃ su : Str, o = some (path ++ 'R' :: '_' :: su) := by
      intro o ho
      obtain ⟨su, hsu⟩ := hprer o ho
      exact ⟨su, by rw [hsu]; simp⟩
    have heq : (addNodeIds σ (.bin k l r i s) path c).1
        = .bin k (addNodeIds σ l (path ++ "L_".data) (c + 1)).1
            (addNodeIds σ r (path ++ "R_".data)
              (addNodeIds σ l (path ++ "L_".data) (c + 1)).2).1
            (some (path ++ binTypeStr k ++ '_' :: σ c)) false := rfl
    rw [heq, idsL_bin]
    simp only [List.append_assoc]
    constructor
    · rw [List.nodup_cons, List.nodup_append]
      refine ⟨?_, hndl, hndr, ?_⟩
      · intro hmem
        rcases List.mem_append.mp hmem with h1 | h2
        · obtain ⟨su, hsu⟩ := hprel' _ h1
          have h3 := List.append_cancel_left (Option.some.injEq _ _ ▸ hsu : _)
          exact binTypeStr_append_ne_L k _ _ h3
        · obtain ⟨su, hsu⟩ := hprer' _ h2
          have h3 := List.append_cancel_left (Option.some.injEq _ _ ▸ hsu : _)
          exact binTypeStr_append_ne_R k _ _ h3
      · intro o h1 h2
        obtain ⟨su1, e1⟩ := hprel' o h1
        obtain ⟨su2, e2⟩ := hprer' o h2
        rw [e1] at e2
        have h3 := List.append_cancel_left (Option.some.injEq _ _ ▸ e2 : _)
        injection h3 with h4 _
        exact absurd h4 (by decide)
    · intro o ho
      rcases List.mem_cons.mp ho with rfl | ho'
      · exact ⟨binTypeStr k ++ '_' :: σ c, rfl⟩
      · rcases List.mem_append.mp ho' with h1 | h2
        · obtain ⟨su, hsu⟩ := hprel' o h1
          exact ⟨'L' :: '_' :: su, hsu⟩
        · obtain ⟨su, hsu⟩ := hprer' o h2
          exact ⟨'R' :: '_' :: su, hsu⟩
  | hun k e i s ihe =>
    intro path c
    obtain ⟨hnde, hpree⟩ := ihe (path ++ "E_".data) (c + 1)
    have hpree' : ∀ o ∈ idsL (addNodeIds σ e (path ++ "E_".data) (c + 1)).1,
        ∃ su : Str, o = some (path ++ 'E' :: '_' :: su) := by
      intro o ho
      obtain ⟨su, hsu⟩ := hpree o ho
      exact ⟨su, by rw [hsu]; simp⟩
    have heq : (addNodeIds σ (.un k e i s) path c).1
        = .un k (addNodeIds σ e (path ++ "E_".data) (c + 1)).1
            (some (path ++ unTypeStr k ++ '_' :: σ c)) false := rfl
    rw [heq, idsL_un]
    simp only [List.append_assoc]
    constructor
    · rw [List.nodup_cons]
      refine ⟨?_, hnde⟩
      intro hmem
      obtain ⟨su, hsu⟩ := hpree' _ hmem
      have h3 := List.append_cancel_left (Option.some.injEq _ _ ▸ hsu : _)
      exact unTypeStr_append_ne_E k _ _ h3
    · intro o ho
      rcases List.mem_cons.mp ho with rfl | ho'
      · exact ⟨unTypeStr k ++ '_' :: σ c, rfl⟩
      · obtain ⟨su, hsu⟩ := hpree' o ho'
        exact ⟨'E' :: '_' :: su, hsu⟩
  | hfunc nm args i s ih =>
    intro path c
    obtain ⟨hnda, hprea⟩ := addNodeIdsArgs_ids_spec σ args ih path 0 (c + 1)
    have heq : (addNodeIds σ (.func nm args i s) path c).1
        = .func nm (addNodeIdsArgs σ args path 0 (c + 1)).1
            (some (path ++ "FUNCTION".data ++ '_' :: σ c)) false := rfl
    rw [heq, idsL_func]
    simp only [List.append_assoc]
    constructor
    · rw [List.nodup_cons]
      refine ⟨?_, hnda⟩
      intro hmem
      obtain ⟨j, su, _, hsu⟩ := hprea _ hmem
      have h3 := List.append_cancel_left (Option.some.injEq _ _ ▸ hsu : _)
      exact funcStr_append_ne_A _ _ h3
    · intro o ho
      rcases List.mem_cons.mp ho with rfl | ho'
      · exact ⟨"FUNCTION".data ++ '_' :: σ c, rfl⟩
      · obtain ⟨j, su, _, hsu⟩ := hprea o ho'
        exact ⟨'A' :: (natDigits j ++ '_' :: su), hsu⟩
  | hnum v i s =>
    intro path c
    have heq : (addNodeIds σ (.num v i s) path c).1
        = .num v (some (path ++ "NUMBER".data ++ '_' :: σ c)) false := rfl
    rw [heq, idsL_num]
    simp only [List.append_assoc]
    refine ⟨List.nodup_singleton _, ?_⟩
    intro o ho
    rw [List.mem_singleton] at ho
    subst ho
    exact ⟨"NUMBER".data ++ '_' :: σ c, rfl⟩
  | hvar nm i s =>
    intro path c
    have heq : (addNodeIds σ (.varRef nm i s) path c).1
        = .varRef nm (some (path ++ "VARIABLE".data ++ '_' :: σ c)) false := rfl
    rw [heq, idsL_varRef]
    simp only [List.append_assoc]
    refine ⟨List.nodup_singleton _, ?_⟩
    intro o ho
    rw [List.mem_singleton] at ho
    subst ho
    exact ⟨"VARIABLE".data ++ '_' :: σ c, rfl⟩
  | hconst k i s =>
    intro path c
    have heq : (addNodeIds σ (.const k i s) path c).1
        = .const k (some (path ++ constTypeStr k ++ '_' :: σ c)) false := rfl
    rw [heq, idsL_const]
    simp only [List.append_assoc]
    refine ⟨List.nodup_singleton _, ?_⟩
    intro o ho
    rw [List.mem_singleton] at ho
    subst ho
    exact ⟨constTypeStr k ++ '_' :: σ c, rfl⟩

/-- C8: for every raw input tree and any random-suffix supply, the adopted
tree has pairwise-distinct node identifiers, every identifier extends the
node's structural-path prefix, and every node's selection flag is cleared.
(Distinctness holds for *any* suffix supply: the path prefixes alone already
separate all positions.) -/
theorem C8_adopt_distinct_ids_cleared_selection :
    ∀ (σ : Nat → Str) (raw : AstNode),
      (idsL (addNodeIds σ raw [] 0).1).Nodup
      ∧ (∀ n ∈ subtreesL (addNodeIds σ raw [] 0).1, n.getSelected = false)
      ∧ (∀ (path : Str) (c : Nat), ∀ o ∈ idsL (addNodeIds σ raw path c).1,
          ∃ su : Str, o = some (path ++ su)) :=
  fun σ raw =>
    ⟨(addNodeIds_ids_spec σ raw [] 0).1,
      addNodeIds_selected_false σ raw [] 0,
      fun path c => (addNodeIds_ids_spec σ raw path c).2⟩
